import Mathlib

/-!
# Verification of the `toy-crypto-math` number-theoretic engine

Shallow embedding, in Lean 4, of the prime-sieve engine
(`src/toy_crypto/sieve.py`), the factorization engine and Miller-Rabin test
(`src/math_utils/__init__.py`), and the modular square root
(`src/toy_crypto/nt.py`) of the `jpgoldberg/toy-crypto-math` repository,
together with proofs and refutations of the specification claims about them.

Conventions used throughout:

* Python `bitarray` values are embedded as `List Bool` (index 0 first).
* Python arbitrary-precision non-negative integers are embedded as `Nat`;
  the one signed entry point (`factor`) takes an `Int`.
* Python loops whose bound is data-dependent are embedded structurally with
  an explicit fuel argument large enough for the loop to finish; termination
  of unbounded recursion (`factor`) is represented by the fuel `Option`.
* Python `raise` is embedded as `Except String`.
-/

/-! ## Generic small helpers -/

/-- Little-endian bit decomposition, fuel-driven.  `natBitsF f n` is the list
of bits of `n` (least significant first) provided `n ≤ f`. -/
def natBitsF : Nat → Nat → List Bool
  | 0, _ => []
  | f + 1, n => if n = 0 then [] else decide (n % 2 = 1) :: natBitsF f (n / 2)

/-- Little-endian bit list of a natural number; embeds the Python loop
`while n: n, r = divmod(n, 2)` (and `bit_utils.lsb_to_msb`). -/
def natBits (n : Nat) : List Bool := natBitsF n n

/-- `int.bit_length()`: number of bits of `n`. -/
def bitLen (n : Nat) : Nat := (natBits n).length

/-- `int.bit_count()`: number of set bits of `n`. -/
def popcount (n : Nat) : Nat := (natBits n).count true

/-- Value of a little-endian bit list (inverse of `natBits`). -/
def bitsToNat : List Bool → Nat
  | [] => 0
  | b :: l => (if b then 1 else 0) + 2 * bitsToNat l

/-- Fast modular exponentiation, fuel-driven: computes `b ^ e % m` the way
Python's three-argument `pow(b, e, m)` does (square and multiply).  The fuel
only needs to exceed the bit length of `e`. -/
def powModF : Nat → Nat → Nat → Nat → Nat
  | 0, _, _, m => 1 % m
  | f + 1, b, e, m =>
    if e = 0 then 1 % m
    else
      let r := powModF f (b * b % m) (e / 2) m
      if e % 2 = 1 then b % m * r % m else r

/-- Python `pow(b, e, m)` (for `m > 0`). -/
def powMod (b e m : Nat) : Nat := powModF (e + 1) b e m

/-- Indices of `true` entries of a boolean list, in increasing order. -/
def trueIndices : List Bool → List Nat
  | [] => []
  | b :: d =>
    if b then 0 :: (trueIndices d).map (· + 1) else (trueIndices d).map (· + 1)

/-- Index of the `(k+1)`-st `true` entry (0-indexed rank `k`), if any. -/
def kthTrueIdx : List Bool → Nat → Option Nat
  | [], _ => none
  | true :: _, 0 => some 0
  | true :: d, k + 1 => (kthTrueIdx d k).map (· + 1)
  | false :: d, k => (kthTrueIdx d k).map (· + 1)

/-- `bitarray.util.count_n(d, k)`: the least `i` such that `d[:i]` contains
exactly `k` ones, or `none` when `d` has fewer than `k` ones (the Python
function raises `ValueError` then).  Implemented by rank recursion. -/
def countN : List Bool → Nat → Option Nat
  | _, 0 => some 0
  | [], _ + 1 => none
  | b :: d, k + 1 => (countN d (if b then k else k + 1)).map (· + 1)

/-- `math.isqrt`, fuel-driven (digit-by-digit recursion on `n / 4`); unlike
`Nat.sqrt` this reduces inside the kernel. -/
def isqrtF : Nat → Nat → Nat
  | 0, _ => 0
  | f + 1, n =>
    if n = 0 then 0
    else
      let r := 2 * isqrtF f (n / 4)
      if (r + 1) * (r + 1) ≤ n then r + 1 else r

/-- `math.isqrt(n)`: the greatest `r` with `r * r ≤ n`. -/
def isqrt (n : Nat) : Nat := isqrtF n n

/-- The outer loop range `range(2, isqrt(n) + 1)` of all three sieves. -/
def pRange (n : Nat) : List Nat := List.range' 2 (isqrt n - 1)

/-! ## `BaSieve` (`src/toy_crypto/sieve.py`, class `BaSieve`)

The shared class state is `_common_data : bitarray` plus `_largest_n : int`;
instances carry only their private `_n` and `_count` snapshot (`from_size`
never sets an instance-level `_data`, so `primes`, `nth_prime` and `__int__`
read the *class* attribute `_common_data`). -/

structure BaClass where
  data : List Bool
  largestN : Nat
deriving Repr, DecidableEq

/-- An instance view: the `_n` and `_count` attributes set by the
constructors. -/
structure BaView where
  n : Nat
  count : Nat
deriving Repr, DecidableEq

/-- `cls._base_sieve = bitarray("0011")`, `cls._largest_n = 2`. -/
def baInit : BaClass := ⟨[false, false, true, true], 2⟩

/-- Python slice assignment `data[start::p] = 0`: clear every index
`start + k * p`; `i0` tracks the index of the current head. -/
def clearMultAux : List Bool → Nat → Nat → Nat → List Bool
  | [], _, _, _ => []
  | b :: d, i0, p, start =>
    (if start ≤ i0 ∧ (i0 - start) % p = 0 then false else b) ::
      clearMultAux d (i0 + 1) p start

def clearMult (d : List Bool) (p start : Nat) : List Bool := clearMultAux d 0 p start

/-- The start index used by `BaSieve._extend` for the pass of `p`:
`start = max(p + p, p * (p // cls._largest_n + 1))`. -/
def baStart (L p : Nat) : Nat := max (p + p) (p * (p / L + 1))

/-- One pass of the `BaSieve._extend` loop:
`if cls._common_data[p]: cls._common_data[start::p] = 0`. -/
def baPass (L : Nat) (d : List Bool) (p : Nat) : List Bool :=
  if d.getD p false then clearMult d p (baStart L p) else d

/-- `BaSieve._extend`: append `n - largest_n` `True` bits, run the
elimination loop for `p` in `range(2, isqrt(n) + 1)`, record the new bound. -/
def baExtend (s : BaClass) (n : Nat) : BaClass :=
  if n ≤ s.largestN then s
  else
    ⟨(pRange n).foldl (baPass s.largestN)
        (s.data ++ List.replicate (n - s.largestN) true), n⟩

/-- Class invariant of `BaSieve`'s shared cache: the bound is at least 2, the
bitarray holds `largest_n + 2` bits, bits `0..largest_n` decide primality, and
the one over-allocated bit at `largest_n + 1` is still set whenever that index
is prime (it was appended as `True` and elimination only clears indices that
are composite multiples). -/
def BaInv (s : BaClass) : Prop :=
  2 ≤ s.largestN ∧ s.data.length = s.largestN + 2 ∧
  (∀ i, i ≤ s.largestN → s.data.getD i false = decide (Nat.Prime i)) ∧
  (Nat.Prime (s.largestN + 1) → s.data.getD (s.largestN + 1) false = true)

/-! ## The reference prime lists -/

/-- The primes strictly below `n`, in increasing order. -/
def primesBelow (n : Nat) : List Nat :=
  (List.range n).filter (fun i => decide (Nat.Prime i))

/-- The primes at or below `n`, in increasing order. -/
def primesUpTo (n : Nat) : List Nat := primesBelow (n + 1)

/-! ## `BaSieve` constructors and methods -/

/-- `BaSieve.from_size`: `ValueError` for `size < 2`, otherwise extend the
shared cache and snapshot `_n = size`,
`_count = cls._common_data[:size].count()`. -/
def baFromSize (c : BaClass) (size : Nat) : Except String (BaClass × BaView) :=
  if size < 2 then .error "size must be greater than 2"
  else
    let c2 := baExtend c size
    .ok (c2, ⟨size, (c2.data.take size).count true⟩)

/-- `BaSieve.primes(start=1)` with the default `start`: yields
`count_n(cls._common_data, k) - 1` for `k = 1 .. _count`.  The class state at
call time is passed explicitly since the Python method reads the shared
`_common_data`. -/
def baPrimes (c : BaClass) (v : BaView) : List (Option Nat) :=
  (List.range' 1 v.count).map (fun k => (countN c.data k).map (· - 1))

/-- `BaSieve.nth_prime(k)`: `ValueError` for `k < 1` or `k > _count`,
otherwise `count_n(cls._common_data, k)` (note: *without* the `- 1` used by
`primes`). -/
def baNthPrime (c : BaClass) (v : BaView) (k : Nat) : Except String Nat :=
  if k < 1 then .error "n must be greater than zero"
  else if v.count < k then .error "n cannot exceed count"
  else
    match countN c.data k with
    | some i => .ok i
    | none => .error "count_n: n larger than total count"

/-- `BaSieve.__int__`: reverse `_common_data[:_n]` and read it with `ba2int`
(big-endian on the reversed list); the net value is the little-endian value
of `_common_data[:_n]`. -/
def baToInt (c : BaClass) (v : BaView) : Nat := bitsToNat (c.data.take v.n)

/-- `BaSieve.from_int`: sets `_n = n.bit_length()`, fills a fresh instance
`_data` with the bits of `n` (one over-allocated bit stays uninitialized;
taken as 0 here, matching CPython's zeroed fresh allocations), and snapshots
`_count = _data.count()`.  The shared class state is not touched, and the
instance `_data` is never read by `primes`/`nth_prime`/`__int__`, which use
the class attribute `_common_data`. -/
def baFromInt (n : Nat) : BaView := ⟨bitLen n, popcount n⟩

/-- `BaSieve.from_list`: for `max(primes) > cls._largest_n` it extends the
shared `_common_data` with `False` bits, sets the bits of the listed primes
above the old bound (`instance._common_data[p] = 1` resolves to the class
attribute and mutates the shared bitarray in place), and sets
`cls._largest_n = max(size, max_prime)`.  Otherwise the class state is left
alone.  Either way the instance snapshots `_n = size` and
`_count = _common_data[:size].count()`. -/
def baFromList (c : BaClass) (ps : List Nat) (size : Option Nat) :
    Except String (BaClass × BaView) :=
  if ps = [] then .error "primes cannot be empty"
  else
    let maxP := ps.foldl max 0
    let sz := size.getD maxP
    if c.largestN < maxP then
      let d1 := c.data ++ List.replicate (maxP - c.largestN) false
      let d2 := ps.foldl (fun d p => if c.largestN < p then d.set p true else d) d1
      .ok (⟨d2, max sz maxP⟩, ⟨sz, (d2.take sz).count true⟩)
    else
      .ok (c, ⟨sz, (c.data.take sz).count true⟩)

deriving instance DecidableEq for Except

/-! ## `SetSieve` (`src/toy_crypto/sieve.py`, class `SetSieve`)

The Python class keeps a sorted list of primes in `self._data`; `_extend`
builds a working `set`, removes multiples (the inner
`for m in range(p + p, n + 1, p): sieve.discard(m)` loop removes exactly the
multiples of `p` in `[2p, n]`, embedded here as one filter), and stores
`sorted(sieve)` back. -/

structure SetInstance where
  n : Nat
  data : List Nat
deriving Repr, DecidableEq

/-- Discard from the working set every multiple of `p` in `[2p, n]`. -/
def setRemove (s : List Nat) (p n : Nat) : List Nat :=
  s.filter (fun m => !(decide (p + p ≤ m ∧ m ≤ n ∧ m % p = 0)))

/-- One pass of the `SetSieve._extend` loop: `if p in sieve: ...discard`. -/
def setPass (n : Nat) (s : List Nat) (p : Nat) : List Nat :=
  if p ∈ s then setRemove s p n else s

/-- `SetSieve._extend`: no-op when `n` is at most the largest known prime;
otherwise union with `range(largest_p + 1, n + 1)`, run the elimination
loop, and store the sorted result. -/
def setExtendData (data : List Nat) (n : Nat) : List Nat :=
  let largest := data.getLast?.getD 0
  if n ≤ largest then data
  else
    let s0 := data ++ List.range' (largest + 1) (n - largest)
    ((pRange n).foldl (setPass n) s0).insertionSort (· ≤ ·)

/-- `SetSieve.from_size`. -/
def setFromSize (size : Nat) : Except String SetInstance :=
  if size < 2 then .error "size must be greater than 2"
  else .ok ⟨size, setExtendData [2, 3] size⟩

/-- `SetSieve.count` is `len(self._data)`. -/
def setCount (v : SetInstance) : Nat := v.data.length

/-- `SetSieve.primes(start=1)` with the default `start`: yields
`self._data[k - 1]` for `k = 1 .. count`. -/
def setPrimes (v : SetInstance) : List (Option Nat) :=
  (List.range' 1 (setCount v)).map (fun k => v.data.get? (k - 1))

/-- `SetSieve.nth_prime(k)`. -/
def setNthPrime (v : SetInstance) (k : Nat) : Except String Nat :=
  if k < 1 then .error "n must be greater than zero"
  else if setCount v < k then .error "n cannot exceed count"
  else
    match v.data.get? (k - 1) with
    | some p => .ok p
    | none => .error "index out of range"

/-! ## `IntSieve` (`src/toy_crypto/sieve.py`, class `IntSieve`)

The sieve data is a single big integer; bit `i` set means `i` is prime.
`self._data & ~(1 << m)` is embedded as `clearBit`, and the inner loop
`for m in range(p + p, n + 1, p)` as a fold over that range. -/

/-- `x & ~(1 << m)`: clear bit `m` of `x`. -/
def clearBit (x m : Nat) : Nat := if x.testBit m then x - 2 ^ m else x

/-- `range(p + p, n + 1, p)`: the multiples of `p` from `2p` through `n`. -/
def multList (p n : Nat) : List Nat :=
  List.range' (p + p) ((n + 1 - (p + p) + (p - 1)) / p) p

/-- The inner loop `for m in range(p + p, n + 1, p): data &= ~(1 << m)`. -/
def intClear (x p n : Nat) : Nat := (multList p n).foldl clearBit x

/-- One pass of the `IntSieve._extend` loop:
`if (self._data & (1 << p)) >> p: ...clear multiples`. -/
def intPass (n : Nat) (x : Nat) (p : Nat) : Nat :=
  if x.testBit p then intClear x p n else x

/-- `IntSieve._extend`: no-op when `n ≤ data.bit_length()`; otherwise set all
bits from `_n` through `n` (`ones = (2 ** ((n - _n) + 1) - 1) << _n`) and run
the elimination loop.  Returns the new `(_data, _n)`. -/
def intExtend (x ninst n : Nat) : Nat × Nat :=
  if n ≤ bitLen x then (x, ninst)
  else
    let ones := (2 ^ ((n - ninst) + 1) - 1) <<< ninst
    ((pRange n).foldl (intPass n) (x ||| ones), n)

/-- `IntSieve._BASE_SIEVE = int("1100", 2)`. -/
def intBase : Nat := 12

structure IntInstance where
  data : Nat
  n : Nat
  count : Nat
deriving Repr, DecidableEq

/-- `IntSieve.from_size`. -/
def intFromSize (size : Nat) : Except String IntInstance :=
  if size < 2 then .error "size must be greater than 2"
  else
    let r := intExtend intBase (bitLen intBase) size
    .ok ⟨r.1, r.2, popcount r.1⟩

/-- Modelled from the spec: `bit_utils.bit_index(x, k)` is called by
`IntSieve.nth_prime`/`IntSieve.primes` but its definition is not in the
provided sources.  The spec describes the bit utilities as "bit-indexing
into large-integer bitmaps", and the call sites (`nth_prime(1) == 2`,
`primes()` yielding prime indices in increasing order) fix the semantics:
the index of the `k`-th (1-indexed) set bit of `x`, `None` when `x` has
fewer than `k` set bits. -/
def bitIndex (x k : Nat) : Option Nat := kthTrueIdx (natBits x) (k - 1)

/-- `IntSieve.primes(start=1)` with the default `start`. -/
def intPrimes (v : IntInstance) : List (Option Nat) :=
  (List.range' 1 v.count).map (fun k => bitIndex v.data k)

/-- `IntSieve.nth_prime(k)`. -/
def intNthPrime (v : IntInstance) (k : Nat) : Except String Nat :=
  if k < 1 then .error "n must be greater than zero"
  else if v.count < k then .error "n cannot exceed count"
  else
    match bitIndex v.data k with
    | some i => .ok i
    | none => .error "bit_index returned None"

/-! ## `mod_sqrt` (`src/toy_crypto/nt.py`) -/

/-- Modelled from the spec: `primefac.sqrtmod_prime(a, m)` is an external
library call (its source is not part of this repository).  The spec says the
general case "checks the Euler criterion before computing a root", i.e. the
primitive returns a square root of `a` modulo the prime `m`; it is modelled
as the least such root.  All claims proved about `mod_sqrt` are invariant
under which of the two roots the primitive returns. -/
def sqrtmodPrime (a m : Nat) : Nat :=
  (((List.range m).find? (fun r => decide (r * r % m = a % m))).getD 0)

/-- `nt.mod_sqrt(a, m)`: special cases for `m = 2` and `m = 3`, `ValueError`
for `m < 2`, shortcut for `a == 1`, `[0]` for `a ≡ 0`, Euler-criterion check
`pow(a, (m - 1) // 2, m) != 1` returning `[]`, else the pair
`[v, (m - v) % m]`. -/
def modSqrt (a m : Nat) : Except String (List Nat) :=
  if m = 2 then .ok [a % m]
  else if m = 3 then .ok [0]
  else if m < 2 then .error "modulus must be prime"
  else if a = 1 then .ok [1, m - 1]
  else if a % m = 0 then .ok [0]
  else if powMod (a % m) ((m - 1) / 2) m ≠ 1 then .ok []
  else .ok [sqrtmodPrime (a % m) m, (m - sqrtmodPrime (a % m) m) % m]

/-! ## `miller_rabin` (`src/math_utils/__init__.py`)

`random.randrange(2, n - 1)` is modelled with an explicit seed stream
`w : Nat → Nat` (one seed per round); `2 + seed % (n - 3)` ranges over
exactly `[2, n - 2]` as the seed varies, and the empty-range `ValueError`
raised when `n - 1 ≤ 2` is an `Except.error`. -/

def randrange (lo hi seed : Nat) : Except String Nat :=
  if hi ≤ lo then .error "empty range for randrange"
  else .ok (lo + seed % (hi - lo))

/-- The loop `while s % 2 == 0: r += 1; s //= 2`, fuel-driven.  For `s = 0`
the Python loop never terminates; with fuel `s` the model returns `(s, 0)`
there, and `millerRabin` never reaches that case. -/
def twoAdicF : Nat → Nat → Nat × Nat
  | 0, s => (0, s)
  | f + 1, s =>
    if s % 2 = 0 then
      let r := twoAdicF f (s / 2)
      (r.1 + 1, r.2)
    else (0, s)

def twoAdic (s : Nat) : Nat × Nat := twoAdicF s s

/-- The inner squaring loop: `for _ in range(r - 1): x = pow(x, 2, n);
if x == n - 1: break` with the `for`-`else` returning composite when the
loop is exhausted. -/
def mrSquare (n : Nat) : Nat → Nat → Bool
  | _, 0 => false
  | x, t + 1 =>
    if powMod x 2 n = n - 1 then true else mrSquare n (powMod x 2 n) t

/-- One Miller-Rabin round for witness `a`. -/
def mrRound (n s r a : Nat) : Bool :=
  if powMod a s n = 1 ∨ powMod a s n = n - 1 then true
  else mrSquare n (powMod a s n) (r - 1)

/-- The `for _ in range(k)` loop over rounds; `i` indexes the seed stream. -/
def mrLoop (n r s : Nat) (w : Nat → Nat) : Nat → Nat → Except String Bool
  | 0, _ => .ok true
  | k + 1, i =>
    match randrange 2 (n - 1) (w i) with
    | .error e => .error e
    | .ok a => if mrRound n s r a then mrLoop n r s w k (i + 1) else .ok false

/-- `miller_rabin(n, k)` with seed stream `w`. -/
def millerRabin (n k : Nat) (w : Nat → Nat) : Except String Bool :=
  if n = 2 then .ok true
  else if n % 2 = 0 then .ok false
  else if n = 1 then .error "nonterminating: s = 0 stays even"
  else mrLoop n (twoAdic (n - 1)).1 (twoAdic (n - 1)).2 w k 0

/-! Section: `math_utils.factor` and its helpers (claim C3). -/

/-- The fixed trial-division table `low_primes` of `factor` (the 309 primes
up to 2039), copied verbatim from the source. -/
def lowPrimes : List Nat := [
  2, 3, 5, 7, 11, 13, 17, 19, 23, 29, 31, 37, 41, 43,
  47, 53, 59, 61, 67, 71, 73, 79, 83, 89, 97, 101, 103, 107,
  109, 113, 127, 131, 137, 139, 149, 151, 157, 163, 167, 173, 179, 181,
  191, 193, 197, 199, 211, 223, 227, 229, 233, 239, 241, 251, 257, 263,
  269, 271, 277, 281, 283, 293, 307, 311, 313, 317, 331, 337, 347, 349,
  353, 359, 367, 373, 379, 383, 389, 397, 401, 409, 419, 421, 431, 433,
  439, 443, 449, 457, 461, 463, 467, 479, 487, 491, 499, 503, 509, 521,
  523, 541, 547, 557, 563, 569, 571, 577, 587, 593, 599, 601, 607, 613,
  617, 619, 631, 641, 643, 647, 653, 659, 661, 673, 677, 683, 691, 701,
  709, 719, 727, 733, 739, 743, 751, 757, 761, 769, 773, 787, 797, 809,
  811, 821, 823, 827, 829, 839, 853, 857, 859, 863, 877, 881, 883, 887,
  907, 911, 919, 929, 937, 941, 947, 953, 967, 971, 977, 983, 991, 997,
  1009, 1013, 1019, 1021, 1031, 1033, 1039, 1049, 1051, 1061, 1063, 1069, 1087, 1091,
  1093, 1097, 1103, 1109, 1117, 1123, 1129, 1151, 1153, 1163, 1171, 1181, 1187, 1193,
  1201, 1213, 1217, 1223, 1229, 1231, 1237, 1249, 1259, 1277, 1279, 1283, 1289, 1291,
  1297, 1301, 1303, 1307, 1319, 1321, 1327, 1361, 1367, 1373, 1381, 1399, 1409, 1423,
  1427, 1429, 1433, 1439, 1447, 1451, 1453, 1459, 1471, 1481, 1483, 1487, 1489, 1493,
  1499, 1511, 1523, 1531, 1543, 1549, 1553, 1559, 1567, 1571, 1579, 1583, 1597, 1601,
  1607, 1609, 1613, 1619, 1621, 1627, 1637, 1657, 1663, 1667, 1669, 1693, 1697, 1699,
  1709, 1721, 1723, 1733, 1741, 1747, 1753, 1759, 1777, 1783, 1787, 1789, 1801, 1811,
  1823, 1831, 1847, 1861, 1867, 1871, 1873, 1877, 1879, 1889, 1901, 1907, 1913, 1931,
  1933, 1949, 1951, 1973, 1979, 1987, 1993, 1997, 1999, 2003, 2011, 2017, 2027, 2029,
  2039]

/-- `ceil(sqrt(n))`: the `top` bound of `factor`'s trial division and the
`cs` candidate of `OLF`.  The source computes it with IEEE-754 `sqrt`; it is
modelled as the exact integer ceiling square root.  None of the properties
proved below depend on its value: in `factor` it only prunes the trial
range, and in `OLF` every candidate goes through `gcd` anyway. -/
def csqrt (n : Nat) : Nat := if isqrt n * isqrt n = n then isqrt n else isqrt n + 1

/-- `math_utils.is_square` as used by `OLF` (`rr = int(round(sqrt(float(n))));
rr * rr == n`), modelled as the exact perfect-square test.  The properties
proved about `factor` do not depend on its value: it only selects which
candidate of `OLF`'s range is turned into a `gcd`. -/
def is_square (n : Nat) : Bool := decide (isqrt n * isqrt n = n)

/-- `OLF(n)` (Hart's one-line factorization): scans `range(n, n*n, n)`,
i.e. `n, 2n, ..., (n-1)*n`, for the first `ni` whose `pow(cs, 2, n)` is a
perfect square and returns `gcd(n, floor(cs - sqrt(pcs)))`; the trailing
`return 1` is the (unreachable, per the source comment) fallback.  The
source's `gcd` is the plain Euclidean loop, i.e. `Nat.gcd`, and
`floor(cs - sqrt(pcs))` is `csqrt ni - isqrt pcs` since `pcs` is a perfect
square when selected. -/
def OLF (n : Nat) : Nat :=
  match (List.range' n (n - 1) n).find? (fun ni => is_square (csqrt ni ^ 2 % n)) with
  | some ni => Nat.gcd n (csqrt ni - isqrt (csqrt ni ^ 2 % n))
  | none => 1

/-- The exponent-extraction loop of `factor`
(`while remainder == 0: exponent += 1; prev_reduced = reduced; ...`),
fuel-driven; returns `(exponent, prev_reduced)`. -/
def extractExpF : Nat → Nat → Nat → Nat × Nat
  | 0, n, _ => (0, n)
  | f + 1, n, p =>
    if n % p = 0 then
      ((extractExpF f (n / p) p).1 + 1, (extractExpF f (n / p) p).2)
    else (0, n)

/-- `extractExpF` with enough fuel: the `p`-adic valuation of `n` and the
reduced cofactor. -/
def extractExp (n p : Nat) : Nat × Nat := extractExpF n n p

/-- The trial-division loop of `factor`:
`for ith, p in enumerate(low_primes[ith:]): if p > top: break; ...` walks
the slice with the slice-relative `enumerate` counter (Python rebinds `ith`
to it, and that is the index threaded into the recursive call), stopping at
the first `p > top` and returning the first `(index, p)` with `p ∣ n`. -/
def trialFindF : List Nat → Nat → Nat → Nat → Option (Nat × Nat)
  | [], _, _, _ => none
  | p :: rest, top, n, i =>
    if top < p then none
    else if n % p = 0 then some (i, p)
    else trialFindF rest top n (i + 1)

/-- The summed exponent `d[p]` accumulated by `FactorList.normalize`. -/
def sumExp (l : List (Nat × Nat)) (p : Nat) : Nat :=
  ((l.filter fun pe => pe.1 == p).map Prod.snd).sum

/-- `FactorList.normalize`: checks every `(p, e)` pair, raising `ValueError`
(modelled as `none`) unless `p ≥ 2` and `e ≥ 1` (the `isinstance` TypeError
cannot arise in the typed embedding), then rebuilds the data as
`[(p, d[p]) for p in sorted(d.keys())]`: the deduplicated keys in increasing
order, each with its summed exponent. -/
def plNormalize (l : List (Nat × Nat)) : Option (List (Nat × Nat)) :=
  if l.all (fun pe => decide (2 ≤ pe.1 ∧ 1 ≤ pe.2)) then
    some ((((l.map Prod.fst).dedup).insertionSort (· ≤ ·)).map fun p => (p, sumExp l p))
  else none

/-- `FactorList.n`: the reconstructed product `prod([p ** e for p, e in
self.data])`.  (On empty data the source's `reduce` would raise; the claim
only evaluates `.n` on successful factorizations of `n ≥ 2`, which are
nonempty, and the mathematical empty product is 1.) -/
def plProd (l : List (Nat × Nat)) : Nat := (l.map fun pe => pe.1 ^ pe.2).prod

/-- `factor(n, ith)`, fuel-driven (`none` = no value: fuel exhaustion models
nontermination, and `n = 0` models the `ValueError` re-check on recursive
calls, which never fire it).  `mr` abstracts the randomized `miller_rabin`
call as an arbitrary oracle.  Branches in source order: `n == 1`;
`n in low_primes`; trial division over `low_primes[ith:]` guarded by
`ith < len(low_primes)` (on a hit, `factors + factor(prev_reduced, ith)`
builds a `FactorList`, whose constructor normalizes); the
`n <= low_primes[-1] ** 2` prime shortcut; `miller_rabin(n)`; `OLF(n) == 1`;
else `(factor(f) + factor(n//f)).normalize()` — one normalization from the
`FactorList` constructor invoked by `+`, and a second explicit one. -/
def factorF (mr : Nat → Bool) : Nat → Nat → Nat → Option (List (Nat × Nat))
  | 0, _, _ => none
  | fuel + 1, n, ith =>
    if n = 0 then none
    else if n = 1 then some []
    else if n ∈ lowPrimes then some [(n, 1)]
    else
      match (if ith < lowPrimes.length then trialFindF (List.drop ith lowPrimes) (csqrt n) n 0 else none) with
      | some ip =>
          (factorF mr fuel (extractExp n ip.2).2 ip.1).bind
            fun rest => plNormalize ((ip.2, (extractExp n ip.2).1) :: rest)
      | none =>
          if n ≤ (lowPrimes.getLastD 0) ^ 2 then some [(n, 1)]
          else if mr n then some [(n, 1)]
          else if OLF n = 1 then some [(n, 1)]
          else
            (factorF mr fuel (OLF n) 0).bind fun l1 =>
              (factorF mr fuel (n / OLF n) 0).bind fun l2 =>
                (plNormalize (l1 ++ l2)).bind plNormalize

/-- The typed entry point of `factor`: an `int` argument (so the
`isinstance` TypeError is ruled out by typing) with the `n < 1` ValueError
made explicit; on success the fuel-driven body runs with `ith = 0`. -/
def factorTop (mr : Nat → Bool) (fuel : Nat) (z : Int) : Except String (Option (List (Nat × Nat))) :=
  if z < 1 then Except.error "input must be positive"
  else Except.ok (factorF mr fuel z.toNat 0)

/-! Basic lemmas about the helpers above. -/

theorem natBitsF_fuel (f g n : Nat) (hf : n ≤ f) (hg : n ≤ g) :
    natBitsF f n = natBitsF g n := by
  induction n using Nat.strong_induction_on generalizing f g with
  | _ n ih =>
    match f, g with
    | 0, 0 => rfl
    | 0, g + 1 =>
      interval_cases n
      simp [natBitsF]
    | f + 1, 0 =>
      interval_cases n
      simp [natBitsF]
    | f + 1, g + 1 =>
      simp only [natBitsF]
      by_cases h0 : n = 0
      · simp [h0]
      · simp only [h0, if_false]
        have hlt : n / 2 < n := Nat.div_lt_self (Nat.pos_of_ne_zero h0) one_lt_two
        rw [ih (n / 2) hlt f g (by omega) (by omega)]

theorem natBits_zero : natBits 0 = [] := rfl

theorem natBits_pos (n : Nat) (hn : 0 < n) :
    natBits n = decide (n % 2 = 1) :: natBits (n / 2) := by
  have h : natBits n = natBitsF (n - 1 + 1) n := by
    unfold natBits
    exact natBitsF_fuel n (n - 1 + 1) n le_rfl (by omega)
  rw [h]
  simp only [natBitsF, Nat.pos_iff_ne_zero.mp hn, if_false]
  congr 1
  exact natBitsF_fuel (n - 1) (n / 2) (n / 2) (by omega) le_rfl

theorem bitsToNat_natBits (n : Nat) : bitsToNat (natBits n) = n := by
  induction n using Nat.strong_induction_on with
  | _ n ih =>
    rcases Nat.eq_zero_or_pos n with h0 | hpos
    · simp [h0, natBits_zero, bitsToNat]
    · rw [natBits_pos n hpos]
      simp only [bitsToNat]
      rw [ih (n / 2) (Nat.div_lt_self hpos one_lt_two)]
      rcases Nat.mod_two_eq_zero_or_one n with h | h <;> simp [h] <;> omega

theorem natBits_getD (n i : Nat) :
    (natBits n).getD i false = decide (n / 2 ^ i % 2 = 1) := by
  induction i generalizing n with
  | zero =>
    rcases Nat.eq_zero_or_pos n with h0 | hpos
    · simp [h0, natBits_zero]
    · rw [natBits_pos n hpos]
      simp
  | succ i ih =>
    rcases Nat.eq_zero_or_pos n with h0 | hpos
    · simp [h0, natBits_zero]
    · rw [natBits_pos n hpos]
      simp only [List.getD_cons_succ, ih]
      rw [Nat.pow_succ, Nat.mul_comm, ← Nat.div_div_eq_div_mul]

/-- A boolean list whose value is zero has no `true` entry. -/
theorem count_eq_zero_of_bitsToNat_eq_zero :
    ∀ (l : List Bool), bitsToNat l = 0 → l.count true = 0
  | [], _ => rfl
  | b :: l, h => by
    have hb : b = false := by
      by_contra hb
      simp only [Bool.not_eq_false] at hb
      simp [bitsToNat, hb] at h
    simp only [bitsToNat, hb, if_false, Nat.zero_add] at h
    have hl : bitsToNat l = 0 := by omega
    simp [hb, List.count_cons, count_eq_zero_of_bitsToNat_eq_zero l hl]

/-- `natBits` of a bit-list value recovers the `true` count. -/
theorem count_natBits_bitsToNat (l : List Bool) :
    (natBits (bitsToNat l)).count true = l.count true := by
  induction l with
  | nil => simp [bitsToNat, natBits_zero]
  | cons b l ih =>
    rcases Nat.eq_zero_or_pos (bitsToNat (b :: l)) with h0 | hpos
    · have hb : b = false := by
        by_contra hb
        simp only [Bool.not_eq_false] at hb
        simp [bitsToNat, hb] at h0
      subst hb
      have hl : bitsToNat l = 0 := by
        simp only [bitsToNat, if_false, Nat.zero_add] at h0
        omega
      have hcl : l.count true = 0 := by
        have hc := count_eq_zero_of_bitsToNat_eq_zero l hl
        omega
      simp [h0, natBits_zero, List.count_cons, hcl]
    · rw [natBits_pos _ hpos]
      have hmod : bitsToNat (b :: l) % 2 = if b then 1 else 0 := by
        simp only [bitsToNat]
        rcases b with _ | _ <;> simp [Nat.add_mul_mod_self_left]
      have hdiv : bitsToNat (b :: l) / 2 = bitsToNat l := by
        simp only [bitsToNat]
        rcases b with _ | _ <;> omega
      rw [hdiv]
      rcases b with _ | _ <;>
        simp [hmod, List.count_cons, ih]

theorem powModF_correct (f b e m : Nat) (hf : e < 2 ^ f) :
    powModF f b e m = b ^ e % m := by
  induction f generalizing b e with
  | zero =>
    have he : e = 0 := by
      simp only [pow_zero] at hf
      omega
    simp [powModF, he]
  | succ f ih =>
    simp only [powModF]
    by_cases h0 : e = 0
    · simp [h0]
    · simp only [h0, if_false]
      have hlt : e / 2 < 2 ^ f := by
        have h2 : 2 ^ (f + 1) = 2 ^ f * 2 := by ring
        omega
      rw [ih (b * b % m) (e / 2) hlt]
      have hbb : (b * b % m) ^ (e / 2) % m = b ^ (2 * (e / 2)) % m := by
        rw [Nat.pow_mod, Nat.mod_mod_of_dvd _ dvd_rfl, ← Nat.pow_mod]
        rw [show b * b = b ^ 2 by ring, ← pow_mul]
      rw [hbb]
      rcases Nat.mod_two_eq_zero_or_one e with hpar | hpar
      · have he : 2 * (e / 2) = e := by omega
        simp [hpar, he]
      · have he : e = 2 * (e / 2) + 1 := by omega
        simp only [hpar, if_pos rfl]
        conv_rhs => rw [he]
        rw [pow_succ]
        rw [Nat.mul_mod, Nat.mod_mod_of_dvd _ dvd_rfl, ← Nat.mul_mod]
        rw [Nat.mul_comm (b ^ (2 * (e / 2))) b, Nat.mul_mod, Nat.mod_mod_of_dvd _ dvd_rfl,
          ← Nat.mul_mod]
        simp

theorem powMod_eq (b e m : Nat) : powMod b e m = b ^ e % m :=
  powModF_correct (e + 1) b e m (by
    calc e < 2 ^ e := Nat.lt_two_pow e
    _ ≤ 2 ^ (e + 1) := Nat.pow_le_pow_right (by omega) (by omega))

theorem count_eq_length_trueIndices (l : List Bool) :
    l.count true = (trueIndices l).length := by
  induction l with
  | nil => rfl
  | cons b d ih =>
    rcases b with _ | _ <;> simp [trueIndices, List.count_cons, ih]

theorem kthTrueIdx_eq_get (d : List Bool) (k : Nat) :
    kthTrueIdx d k = (trueIndices d).get? k := by
  induction d generalizing k with
  | nil => simp [kthTrueIdx, trueIndices]
  | cons b d ih =>
    rcases b with _ | _
    · simp [kthTrueIdx, trueIndices, ih]
    · match k with
      | 0 => simp [kthTrueIdx, trueIndices]
      | k + 1 => simp [kthTrueIdx, trueIndices, ih]

theorem countN_eq_kth (d : List Bool) (k : Nat) :
    countN d (k + 1) = (kthTrueIdx d k).map (· + 1) := by
  induction d generalizing k with
  | nil => simp [countN, kthTrueIdx]
  | cons b d ih =>
    rcases b with _ | _
    · simp [countN, ih, kthTrueIdx, Option.map_map]
    · match k with
      | 0 => simp [countN, kthTrueIdx]
      | k + 1 =>
        simp [countN, ih, kthTrueIdx, Option.map_map]

/-- `trueIndices` of a list that pointwise decides `P` is the filtered range. -/
theorem trueIndices_eq_filter (P : Nat → Prop) [DecidablePred P] :
    ∀ (d : List Bool), (∀ i, i < d.length → d.getD i false = decide (P i)) →
      trueIndices d = (List.range d.length).filter (fun i => decide (P i))
  | [], _ => rfl
  | b :: d, h => by
    have hb : b = decide (P 0) := h 0 (by simp)
    have hd : ∀ i, i < d.length → d.getD i false = decide (P (i + 1)) := by
      intro i hi
      have hh := h (i + 1) (by simpa using Nat.succ_lt_succ hi)
      simpa using hh
    have ihd := trueIndices_eq_filter (fun i => P (i + 1)) d hd
    simp only [trueIndices, List.length_cons, List.range_succ_eq_map,
      List.filter_cons, hb]
    rw [List.filter_map]
    have hcomp : (fun i => decide (P i)) ∘ Nat.succ = fun i => decide (P (i + 1)) := rfl
    rw [hcomp, ← ihd]

theorem map_range_get (l : List α) :
    (List.range l.length).map (fun k => l.get? k) = l.map some := by
  induction l with
  | nil => rfl
  | cons a t ih =>
    simp only [List.length_cons, List.range_succ_eq_map, List.map_cons, List.map_map]
    congr 1

theorem map_range'_get (l : List α) :
    (List.range' 1 l.length).map (fun k => l.get? (k - 1)) = l.map some := by
  have h1 : List.range' 1 l.length = (List.range l.length).map (1 + ·) :=
    List.range'_eq_map_range 1 l.length
  rw [h1, List.map_map]
  have h2 : ((fun k => l.get? (k - 1)) ∘ (fun x => 1 + x)) = fun k => l.get? k := by
    funext k
    simp
  rw [h2, map_range_get]

/-! ## Generic sieve-elimination machinery

All three sieve representations run the same outer loop: for each `p` from 2
to `isqrt n`, if `p` is still marked, clear a set of multiples of `p`.  We
prove the three basic facts (marks are never resurrected, primes are never
cleared, a fired pass clears its multiples) once, for an abstract state. -/

section SieveFold

variable {σ : Type} (get : σ → Nat → Bool) (step : σ → Nat → σ)

theorem foldl_false_stable
    (h1 : ∀ s p i, get (step s p) i = true → get s i = true) :
    ∀ (l : List Nat) (s : σ) (i : Nat),
      get s i = false → get (l.foldl step s) i = false := by
  intro l
  induction l with
  | nil => intro s i h; simpa using h
  | cons q t ih =>
    intro s i h
    apply ih
    rcases hq : get (step s q) i with _ | _
    · rfl
    · rw [h1 s q i hq] at h
      exact Bool.noConfusion h

theorem foldl_prime_stable
    (h2 : ∀ s p i, 2 ≤ p → Nat.Prime i → get s i = true → get (step s p) i = true) :
    ∀ (l : List Nat) (s : σ) (i : Nat), (∀ p ∈ l, 2 ≤ p) → Nat.Prime i →
      get s i = true → get (l.foldl step s) i = true := by
  intro l
  induction l with
  | nil => intro s i _ _ h; simpa using h
  | cons q t ih =>
    intro s i hl hi h
    exact ih (step s q) i (fun p hp => hl p (List.mem_cons_of_mem q hp)) hi
      (h2 s q i (hl q (List.mem_cons_self q t)) hi h)

theorem foldl_clears (C : Nat → Nat → Prop)
    (h1 : ∀ s p i, get (step s p) i = true → get s i = true)
    (h2 : ∀ s p i, 2 ≤ p → Nat.Prime i → get s i = true → get (step s p) i = true)
    (h3 : ∀ s p m, C p m → get s p = true → get (step s p) m = false) :
    ∀ (l : List Nat) (s : σ) (p m : Nat), (∀ q ∈ l, 2 ≤ q) → p ∈ l →
      Nat.Prime p → get s p = true → C p m → get (l.foldl step s) m = false := by
  intro l
  induction l with
  | nil => intro s p m _ hp; exact absurd hp (List.not_mem_nil p)
  | cons q t ih =>
    intro s p m hl hp hprime hs hC
    rcases List.mem_cons.mp hp with rfl | hpt
    · exact foldl_false_stable get step h1 t (step s p) m (h3 s p m hC hs)
    · exact ih (step s q) p m (fun r hr => hl r (List.mem_cons_of_mem q hr)) hpt hprime
        (h2 s q p (hl q (List.mem_cons_self q t)) hprime hs) hC

end SieveFold

theorem isqrtF_spec (f n : Nat) (hf : n ≤ f) :
    isqrtF f n * isqrtF f n ≤ n ∧ n < (isqrtF f n + 1) * (isqrtF f n + 1) := by
  induction f generalizing n with
  | zero =>
    have h0 : n = 0 := by omega
    simp [isqrtF, h0]
  | succ f ih =>
    simp only [isqrtF]
    by_cases h0 : n = 0
    · simp [h0]
    · simp only [h0, if_false]
      obtain ⟨h1, h2⟩ := ih (n / 4) (by omega)
      set r := isqrtF f (n / 4) with hr
      by_cases hc : (2 * r + 1) * (2 * r + 1) ≤ n
      · rw [if_pos hc]
        constructor
        · exact hc
        · have h4 : n < 4 * (n / 4) + 4 := by omega
          nlinarith
      · rw [if_neg hc]
        constructor
        · have := Nat.div_mul_le_self n 4
          nlinarith [Nat.div_mul_le_self n 4]
        · omega

theorem isqrt_eq (n : Nat) : isqrt n = Nat.sqrt n := by
  obtain ⟨h1, h2⟩ := isqrtF_spec n n le_rfl
  have ha : isqrt n ≤ Nat.sqrt n := Nat.le_sqrt.mpr h1
  have hb : Nat.sqrt n < isqrt n + 1 := Nat.sqrt_lt.mpr h2
  omega

theorem mem_pRange (n p : Nat) : p ∈ pRange n ↔ 2 ≤ p ∧ p ≤ Nat.sqrt n := by
  unfold pRange
  rw [isqrt_eq]
  rw [List.mem_range']
  constructor
  · rintro ⟨i, hi, rfl⟩
    omega
  · rintro ⟨h2, hle⟩
    exact ⟨p - 2, by omega, by omega⟩

theorem pRange_ge_two (n : Nat) : ∀ p ∈ pRange n, 2 ≤ p := by
  intro p hp
  exact ((mem_pRange n p).mp hp).1

/-- Every composite `m ≥ 2` has a prime divisor `p` with `p * p ≤ m`. -/
theorem exists_small_prime_divisor (m : Nat) (h2 : 2 ≤ m) (hm : ¬Nat.Prime m) :
    ∃ p, Nat.Prime p ∧ p ∣ m ∧ p * p ≤ m := by
  refine ⟨m.minFac, Nat.minFac_prime (by omega), Nat.minFac_dvd m, ?_⟩
  have := Nat.minFac_sq_le_self (by omega) hm
  simpa [pow_two] using this

theorem clearMultAux_length (d : List Bool) (i0 p start : Nat) :
    (clearMultAux d i0 p start).length = d.length := by
  induction d generalizing i0 with
  | nil => rfl
  | cons b d ih => simp [clearMultAux, ih]

theorem clearMultAux_getD (d : List Bool) (i0 p start j : Nat) :
    (clearMultAux d i0 p start).getD j false =
      if start ≤ i0 + j ∧ (i0 + j - start) % p = 0 then false
      else d.getD j false := by
  induction d generalizing i0 j with
  | nil => simp [clearMultAux]
  | cons b d ih =>
    match j with
    | 0 => simp [clearMultAux]
    | j + 1 =>
      simp only [clearMultAux, List.getD_cons_succ]
      rw [ih (i0 + 1) j]
      have harith : i0 + 1 + j = i0 + (j + 1) := by omega
      rw [harith]

theorem clearMult_getD (d : List Bool) (p start j : Nat) :
    (clearMult d p start).getD j false =
      if start ≤ j ∧ (j - start) % p = 0 then false else d.getD j false := by
  unfold clearMult
  rw [clearMultAux_getD]
  simp

theorem dvd_baStart (L p : Nat) : p ∣ baStart L p := by
  unfold baStart
  rcases max_choice (p + p) (p * (p / L + 1)) with h | h <;> rw [h]
  · exact ⟨2, by ring⟩
  · exact Dvd.intro _ rfl

theorem baStart_le_sq (L p : Nat) (hp : 2 ≤ p) (hL : 2 ≤ L) :
    baStart L p ≤ p * p := by
  unfold baStart
  have h1 : p + p ≤ p * p := by nlinarith
  have hdiv : p / L ≤ p / 2 := Nat.div_le_div_left hL (by omega)
  have h2 : p / L + 1 ≤ p := by
    have := Nat.div_le_self p 2
    omega
  have h3 : p * (p / L + 1) ≤ p * p := Nat.mul_le_mul_left p h2
  omega

theorem baStart_ge (L p : Nat) : p + p ≤ baStart L p := le_max_left _ _

/-- `baPass` never resurrects a cleared bit. -/
theorem baPass_true_of (L : Nat) (d : List Bool) (p i : Nat)
    (h : (baPass L d p).getD i false = true) : d.getD i false = true := by
  unfold baPass at h
  rcases hd : d.getD p false with _ | _ <;> rw [hd] at h
  · simpa using h
  · simp only [if_true] at h
    rw [clearMult_getD] at h
    by_cases hc : baStart L p ≤ i ∧ (i - baStart L p) % p = 0
    · rw [if_pos hc] at h
      exact absurd h (by simp)
    · rwa [if_neg hc] at h

/-- `baPass` never clears a prime index. -/
theorem baPass_prime_stable (L : Nat) (d : List Bool) (p i : Nat)
    (hp : 2 ≤ p) (hi : Nat.Prime i) (h : d.getD i false = true) :
    (baPass L d p).getD i false = true := by
  unfold baPass
  rcases hd : d.getD p false with _ | _
  · simpa using h
  · simp only [if_true]
    rw [clearMult_getD]
    have hnc : ¬(baStart L p ≤ i ∧ (i - baStart L p) % p = 0) := by
      rintro ⟨hle, hmod⟩
      have hdvd : p ∣ i := by
        have h1 : p ∣ i - baStart L p := Nat.dvd_of_mod_eq_zero hmod
        have h2 : p ∣ baStart L p := dvd_baStart L p
        have := Nat.dvd_add h1 h2
        rwa [Nat.sub_add_cancel hle] at this
      rcases (Nat.Prime.eq_one_or_self_of_dvd hi p hdvd) with h1 | h1
      · omega
      · subst h1
        have := baStart_ge L p
        omega
    rw [if_neg hnc]
    exact h

/-- A fired `baPass` clears every multiple of `p` at or above its start. -/
theorem baPass_clears (L : Nat) (d : List Bool) (p m : Nat)
    (hC : p ∣ m ∧ baStart L p ≤ m) (hp : d.getD p false = true) :
    (baPass L d p).getD m false = false := by
  unfold baPass
  rw [hp, if_pos rfl, clearMult_getD]
  rcases hC with ⟨hdvd, hle⟩
  have hmod : (m - baStart L p) % p = 0 :=
    Nat.mod_eq_zero_of_dvd (Nat.dvd_sub' hdvd (dvd_baStart L p))
  rw [if_pos ⟨hle, hmod⟩]

theorem baInit_inv : BaInv baInit := by
  refine ⟨by decide, by decide, ?_, by decide⟩
  intro i hi
  have hi2 : i ≤ 2 := hi
  interval_cases i <;> decide

theorem foldl_baPass_length (L : Nat) (l : List Nat) (d : List Bool) :
    (l.foldl (baPass L) d).length = d.length := by
  induction l generalizing d with
  | nil => rfl
  | cons q t ih =>
    rw [List.foldl_cons, ih]
    unfold baPass
    rcases d.getD q false with _ | _
    · simp
    · simp [clearMult, clearMultAux_length]

theorem baExtend_inv (s : BaClass) (n : Nat) (h : BaInv s) :
    BaInv (baExtend s n) ∧ (baExtend s n).largestN = max s.largestN n := by
  obtain ⟨hL2, hlen, hcorr, hjunk⟩ := h
  unfold baExtend
  by_cases hle : n ≤ s.largestN
  · rw [if_pos hle]
    exact ⟨⟨hL2, hlen, hcorr, hjunk⟩, (max_eq_left hle).symm⟩
  · rw [if_neg hle]
    have hLn : s.largestN < n := by omega
    set L := s.largestN with hLdef
    set d0 : List Bool := s.data ++ List.replicate (n - L) true with hd0
    set dF : List Bool := (pRange n).foldl (baPass L) d0 with hdF
    have hd0len : d0.length = n + 2 := by
      rw [hd0, List.length_append, hlen, List.length_replicate]
      omega
    have hd0_lo : ∀ i, i < L + 2 → d0.getD i false = s.data.getD i false := by
      intro i hi
      rw [hd0]
      exact List.getD_append _ _ _ _ (by omega)
    have hd0_hi : ∀ i, L + 2 ≤ i → i < n + 2 → d0.getD i false = true := by
      intro i h1 h2
      rw [hd0, List.getD_append_right _ _ _ _ (by omega)]
      rw [hlen]
      rw [List.getD_eq_getElem _ _ (by
        rw [List.length_replicate]
        omega)]
      simp
    have hd0_prime : ∀ i, i ≤ n + 1 → Nat.Prime i → d0.getD i false = true := by
      intro i hin hi
      rcases Nat.lt_or_ge i (L + 2) with hiL | hiL
      · rw [hd0_lo i hiL]
        rcases Nat.lt_or_ge i (L + 1) with hc | hc
        · rw [hcorr i (by omega)]
          simpa using hi
        · have hieq : i = L + 1 := by omega
          subst hieq
          exact hjunk hi
      · exact hd0_hi i hiL (by omega)
    have hfalse : ∀ i, d0.getD i false = false → dF.getD i false = false := by
      intro i hi
      exact foldl_false_stable (fun d j => d.getD j false) (baPass L)
        (baPass_true_of L) (pRange n) d0 i hi
    have hprime_final : ∀ i, i ≤ n + 1 → Nat.Prime i → dF.getD i false = true := by
      intro i hin hi
      exact foldl_prime_stable (fun d j => d.getD j false) (baPass L)
        (baPass_prime_stable L) (pRange n) d0 i (pRange_ge_two n) hi
        (hd0_prime i hin hi)
    have hcomp_final : ∀ i, i ≤ n → ¬Nat.Prime i → dF.getD i false = false := by
      intro i hin hi
      rcases Nat.lt_or_ge i (L + 1) with hiL | hiL
      · apply hfalse
        rw [hd0_lo i (by omega), hcorr i (by omega)]
        simpa using hi
      · have hi2 : 2 ≤ i := by omega
        obtain ⟨p, hp, hpd, hpsq⟩ := exists_small_prime_divisor i hi2 hi
        have hp2 : 2 ≤ p := hp.two_le
        have hpsqrt : p ≤ Nat.sqrt n := Nat.le_sqrt.mpr (by omega)
        have hpmem : p ∈ pRange n := (mem_pRange n p).mpr ⟨hp2, hpsqrt⟩
        have hpd0 : d0.getD p false = true := by
          apply hd0_prime p _ hp
          have := Nat.sqrt_le_self n
          omega
        exact foldl_clears (fun d j => d.getD j false) (baPass L)
          (fun p m => p ∣ m ∧ baStart L p ≤ m)
          (baPass_true_of L) (baPass_prime_stable L)
          (fun d p m hC hdp => baPass_clears L d p m hC hdp)
          (pRange n) d0 p i (pRange_ge_two n) hpmem hp hpd0
          ⟨hpd, le_trans (baStart_le_sq L p hp2 hL2) (by omega)⟩
    have hlenF : dF.length = n + 2 := by
      rw [hdF, foldl_baPass_length, hd0len]
    refine ⟨⟨?_, ?_, ?_, ?_⟩, ?_⟩
    · show 2 ≤ n
      omega
    · show dF.length = n + 2
      exact hlenF
    · intro i hi
      have hin : i ≤ n := hi
      rcases hdec : decide (Nat.Prime i) with _ | _
      · exact hcomp_final i hin (by simpa using hdec)
      · exact hprime_final i (by omega) (by simpa using hdec)
    · intro hpn
      exact hprime_final (n + 1) le_rfl hpn
    · show n = max s.largestN n
      exact (max_eq_right (by omega)).symm

theorem getD_take (l : List Bool) (n i : Nat) (h : i < n) :
    (l.take n).getD i false = l.getD i false := by
  simp [List.getD_eq_getElem?_getD, List.getElem?_take, h]

theorem trueIndices_append (l1 l2 : List Bool) :
    trueIndices (l1 ++ l2) =
      trueIndices l1 ++ (trueIndices l2).map (· + l1.length) := by
  induction l1 with
  | nil =>
    simp [trueIndices]
  | cons b t ih =>
    have hcomp : ∀ (l : List Nat),
        (l.map (· + t.length)).map (· + 1) = l.map (· + (t.length + 1)) := by
      intro l
      rw [List.map_map]
      apply List.map_congr_left
      intro a _
      simp
      omega
    rcases b with _ | _ <;>
      simp [trueIndices, ih, List.map_append, hcomp]

/-! Correctness of the `BaSieve` methods under the class invariant. -/

theorem trueIndices_take_of_inv (c : BaClass) (h : BaInv c) (m : Nat)
    (hm : m ≤ c.largestN + 1) :
    trueIndices (c.data.take m) = primesBelow m := by
  obtain ⟨hL2, hlen, hcorr, _⟩ := h
  have hlen' : (c.data.take m).length = m :=
    List.length_take_of_le (by omega)
  have hpt := trueIndices_eq_filter Nat.Prime (c.data.take m) ?_
  · rw [hpt, hlen']
    rfl
  · intro i hi
    rw [hlen'] at hi
    rw [getD_take c.data m i hi]
    exact hcorr i (by omega)

theorem trueIndices_get_of_inv (c : BaClass) (h : BaInv c) (m k : Nat)
    (hm : m ≤ c.largestN + 1) (hk : k < (primesBelow m).length) :
    (trueIndices c.data).get? k = (primesBelow m).get? k := by
  have hsplit : c.data = c.data.take m ++ c.data.drop m :=
    (List.take_append_drop m c.data).symm
  rw [hsplit, trueIndices_append, trueIndices_take_of_inv c h m hm]
  exact List.get?_append (by omega)

theorem baPrimes_eq (c : BaClass) (h : BaInv c) (m : Nat)
    (hm : m ≤ c.largestN + 1) (v : BaView)
    (hv : v.count = (primesBelow m).length) :
    baPrimes c v = (primesBelow m).map some := by
  unfold baPrimes
  rw [hv]
  have hcong : ∀ k ∈ List.range' 1 (primesBelow m).length,
      (countN c.data k).map (· - 1) = (primesBelow m).get? (k - 1) := by
    intro k hkmem
    rw [List.mem_range'] at hkmem
    obtain ⟨i, hi, rfl⟩ := hkmem
    have h1 : 1 + 1 * i = i + 1 := by omega
    rw [h1, countN_eq_kth, kthTrueIdx_eq_get,
      trueIndices_get_of_inv c h m i hm (by omega)]
    have h2 : i + 1 - 1 = i := by omega
    rw [h2, Option.map_map]
    have h3 : ((fun x => x - 1) ∘ (fun x => x + 1)) = (id : Nat → Nat) := by
      funext x
      simp
    rw [h3, Option.map_id]
    rfl
  rw [List.map_congr_left hcong]
  exact map_range'_get (primesBelow m)

theorem baCount_take (c : BaClass) (h : BaInv c) (m : Nat)
    (hm : m ≤ c.largestN + 1) :
    (c.data.take m).count true = (primesBelow m).length := by
  rw [count_eq_length_trueIndices, trueIndices_take_of_inv c h m hm]

/-- `from_size` on a valid class state: success for `n ≥ 2`, the new class
state is valid with bound `max largest_n n`, and the view's `count` and
`primes()` are those of the primes *strictly below* `n`. -/
theorem baFromSize_ok (c : BaClass) (h : BaInv c) (n : Nat) (hn : 2 ≤ n) :
    ∃ c2 v, baFromSize c n = .ok (c2, v) ∧ BaInv c2 ∧
      c2.largestN = max c.largestN n ∧ v.n = n ∧
      v.count = (primesBelow n).length ∧
      baPrimes c2 v = (primesBelow n).map some := by
  obtain ⟨hinv2, hbound⟩ := baExtend_inv c n h
  refine ⟨baExtend c n, ⟨n, ((baExtend c n).data.take n).count true⟩, ?_, hinv2,
    hbound, rfl, ?_, ?_⟩
  · unfold baFromSize
    rw [if_neg (by omega)]
  · exact baCount_take _ hinv2 n (by
      rw [hbound]
      omega)
  · refine baPrimes_eq _ hinv2 n (by
      rw [hbound]
      omega) _ ?_
    exact baCount_take _ hinv2 n (by
      rw [hbound]
      omega)

/-! ## Claims about `BaSieve` (C1, C4, C5, C9, C10) -/

/-- Claim C1 (code bug, evaluation at the failing input): the spec says
`from_size(n)` covers `[0, n]` with `count` equal to the number of primes
`≤ n` (and the class's own docstrings agree: a size-5 sieve should serialize
to 44 = 0b101100), but `BaSieve.from_size` counts `_common_data[:size]`,
which drops index `size` itself.  At the failing input `n = 5` the code
reports `count = 2` and serializes to 12, while there are 3 primes `≤ 5`;
the `n < 2` failure branch does behave as specified. -/
theorem claim_C1 :
    (baFromSize baInit 5).map (fun x => x.2.count) = .ok 2 ∧
    (baFromSize baInit 5).map (fun x => baToInt x.1 x.2) = .ok 12 ∧
    (primesUpTo 5).length = 3 ∧
    baFromSize baInit 1 = .error "size must be greater than 2" ∧
    baFromSize baInit 0 = .error "size must be greater than 2" := by
  refine ⟨by decide, by decide, by decide, by decide, by decide⟩

/-- Claim C4 (round-trip): for every `n ≥ 2`, building `s = from_size(n)`
and then `t = from_int(int(s))` gives `t.count == s.count` and the same
`primes()` sequence (both methods read the shared `_common_data`, and the
bit count of `int(s)` equals the stored `_count`). -/
theorem claim_C4 (n : Nat) (hn : 2 ≤ n) :
    ∃ c s, baFromSize baInit n = .ok (c, s) ∧
      (baFromInt (baToInt c s)).count = s.count ∧
      baPrimes c (baFromInt (baToInt c s)) = baPrimes c s := by
  obtain ⟨c, s, hok, hinv, hbound, hsn, hscount, _⟩ :=
    baFromSize_ok baInit baInit_inv n hn
  have hnL : n ≤ c.largestN + 1 := by
    rw [hbound]
    simp [baInit]
    omega
  have htake : (c.data.take n).count true = (primesBelow n).length :=
    baCount_take c hinv n hnL
  have hcounteq : (baFromInt (baToInt c s)).count = s.count := by
    show popcount (bitsToNat (c.data.take s.n)) = s.count
    rw [hsn, hscount]
    unfold popcount
    rw [count_natBits_bitsToNat, htake]
  refine ⟨c, s, hok, hcounteq, ?_⟩
  unfold baPrimes
  rw [hcounteq]

/-- Claim C4 witness: the round-trip at the concrete size 30. -/
theorem claim_C4_witness :
    2 ≤ 30 ∧ ∃ c s, baFromSize baInit 30 = .ok (c, s) ∧
      (baFromInt (baToInt c s)).count = s.count ∧
      baPrimes c (baFromInt (baToInt c s)) = baPrimes c s :=
  ⟨by decide, claim_C4 30 (by decide)⟩

/-- Claim C5 (code bug, evaluation at the failing input): `nth_prime` should
be 1-indexed with `nth_prime(1) == 2` and agree with `primes()`, but
`BaSieve.nth_prime` returns `count_n(_common_data, k)` without the `- 1`
used by `primes`, so on `from_size(30)` it returns 3 for `k = 1` while the
first element of `primes()` is 2; the `k < 1` and `k > count` error branches
do behave as specified. -/
theorem claim_C5 :
    (baFromSize baInit 30).map (fun x => baNthPrime x.1 x.2 1) =
      .ok (.ok 3) ∧
    (baFromSize baInit 30).map (fun x => (baPrimes x.1 x.2).head?) =
      .ok (some (some 2)) ∧
    (baFromSize baInit 30).map (fun x => baNthPrime x.1 x.2 0) =
      .ok (.error "n must be greater than zero") ∧
    (baFromSize baInit 30).map (fun x => baNthPrime x.1 x.2 11) =
      .ok (.error "n cannot exceed count") := by
  refine ⟨by decide, by decide, by decide, by decide⟩

/-- Claim C9 (frame property of shared-cache growth): for `2 ≤ n < m`,
constructing `from_size(n)` and then `from_size(m)` leaves the first view's
`n` and `count` attributes unchanged (they are instance snapshots, and the
count of the primes below `n` in the grown cache is unchanged); in
particular a size-30 view keeps `count == 10`. -/
theorem claim_C9 (n m : Nat) (hn : 2 ≤ n) (hm : n < m) :
    ∃ c1 s c2 t, baFromSize baInit n = .ok (c1, s) ∧
      baFromSize c1 m = .ok (c2, t) ∧
      s.n = n ∧ s.count = (primesBelow n).length ∧
      (n = 30 → s.count = 10) := by
  obtain ⟨c1, s, hok1, hinv1, _, hsn, hscount, _⟩ :=
    baFromSize_ok baInit baInit_inv n hn
  obtain ⟨c2, t, hok2, _, _, _, _, _⟩ :=
    baFromSize_ok c1 hinv1 m (by omega)
  refine ⟨c1, s, c2, t, hok1, hok2, hsn, hscount, ?_⟩
  rintro rfl
  rw [hscount]
  decide

/-- Claim C9 witness: growing from size 30 to size 200 leaves the size-30
view's `count == 10`. -/
theorem claim_C9_witness :
    ∃ c1 s c2 t, baFromSize baInit 30 = .ok (c1, s) ∧
      baFromSize c1 200 = .ok (c2, t) ∧
      s.n = 30 ∧ s.count = (primesBelow 30).length ∧
      (30 = 30 → s.count = 10) :=
  claim_C9 30 200 (by decide) (by decide)

/-- Claim C10 counterexample: `from_list` does *not* leave the shared cache
unchanged.  On a fresh cache, `from_list([7])` grows `_common_data` with
zero bits (marking only 7), after which `from_size(6)` reports `count = 2`
and primes `[2, 3]`, whereas without the prior `from_list` call
`from_size(6)` reports `count = 3` and primes `[2, 3, 5]`. -/
theorem claim_C10_counterexample :
    (baFromList baInit [7] none).map
        (fun x => (baFromSize x.1 6).map (fun y => y.2.count)) =
      .ok (.ok 2) ∧
    (baFromSize baInit 6).map (fun y => y.2.count) = .ok 3 ∧
    (baFromList baInit [7] none).map
        (fun x => (baFromSize x.1 6).map (fun y => baPrimes y.1 y.2)) =
      .ok (.ok [some 2, some 3]) ∧
    (baFromSize baInit 6).map (fun y => baPrimes y.1 y.2) =
      .ok [some 2, some 3, some 5] := by
  refine ⟨by decide, by decide, by decide, by decide⟩

/-- Claim C10 (amended): `from_list(L)` leaves the class-level shared cache
(`_common_data` and `_largest_n`) unchanged — so later `from_size` calls are
unaffected — only when `max(L)` does not exceed the current cache bound
`_largest_n`; when `max(L)` is larger, the cache is mutated (see the
counterexample). -/
theorem claim_C10 (c : BaClass) (ps : List Nat) (size : Option Nat)
    (hne : ps ≠ []) (hmax : ps.foldl max 0 ≤ c.largestN) :
    ∃ v, baFromList c ps size = .ok (c, v) := by
  refine ⟨⟨size.getD (ps.foldl max 0), (c.data.take (size.getD (ps.foldl max 0))).count true⟩, ?_⟩
  unfold baFromList
  rw [if_neg hne, if_neg (by omega)]

/-- Claim C10 witness: `from_list([2])` on the fresh cache (bound 2) leaves
the class state unchanged. -/
theorem claim_C10_witness :
    [2] ≠ ([] : List Nat) ∧ [2].foldl max 0 ≤ baInit.largestN ∧
    ∃ v, baFromList baInit [2] none = .ok (baInit, v) :=
  ⟨by decide, by decide, claim_C10 baInit [2] none (by decide) (by decide)⟩

/-- Two strictly sorted lists with the same members are equal. -/
theorem sorted_lt_eq_of_mem_iff :
    ∀ {l1 l2 : List Nat}, l1.Sorted (· < ·) → l2.Sorted (· < ·) →
      (∀ x, x ∈ l1 ↔ x ∈ l2) → l1 = l2
  | [], [], _, _, _ => rfl
  | [], b :: t2, _, _, hmem => by
    have hb := (hmem b).mpr (List.mem_cons_self b t2)
    exact absurd hb (List.not_mem_nil b)
  | a :: t1, [], _, _, hmem => by
    have ha := (hmem a).mp (List.mem_cons_self a t1)
    exact absurd ha (List.not_mem_nil a)
  | a :: t1, b :: t2, h1, h2, hmem => by
    have h1' : t1.Sorted (· < ·) := h1.of_cons
    have h2' : t2.Sorted (· < ·) := h2.of_cons
    have h1a : ∀ x ∈ t1, a < x := fun x hx => (List.pairwise_cons.mp h1).1 x hx
    have h2b : ∀ x ∈ t2, b < x := fun x hx => (List.pairwise_cons.mp h2).1 x hx
    have hab : a = b := by
      have ha := (hmem a).mp (List.mem_cons_self a t1)
      have hb := (hmem b).mpr (List.mem_cons_self b t2)
      rcases List.mem_cons.mp ha with h | h
      · exact h
      · rcases List.mem_cons.mp hb with h' | h'
        · exact h'.symm
        · have := h2b a h
          have := h1a b h'
          omega
    subst hab
    have htails : ∀ x, x ∈ t1 ↔ x ∈ t2 := by
      intro x
      constructor
      · intro hx
        have hxa := h1a x hx
        have := (hmem x).mp (List.mem_cons_of_mem a hx)
        rcases List.mem_cons.mp this with h | h
        · omega
        · exact h
      · intro hx
        have hxa := h2b x hx
        have := (hmem x).mpr (List.mem_cons_of_mem a hx)
        rcases List.mem_cons.mp this with h | h
        · omega
        · exact h
    rw [sorted_lt_eq_of_mem_iff h1' h2' htails]

theorem primesUpTo_sorted (n : Nat) : (primesUpTo n).Sorted (· < ·) := by
  have h : (List.range (n + 1)).Pairwise (· < ·) := List.pairwise_lt_range (n + 1)
  exact h.sublist (List.filter_sublist _)

theorem mem_primesUpTo (n x : Nat) :
    x ∈ primesUpTo n ↔ Nat.Prime x ∧ x ≤ n := by
  unfold primesUpTo primesBelow
  rw [List.mem_filter, List.mem_range]
  constructor
  · rintro ⟨h1, h2⟩
    exact ⟨by simpa using h2, by omega⟩
  · rintro ⟨h1, h2⟩
    exact ⟨by omega, by simpa using h1⟩

theorem mem_primesBelow (n x : Nat) :
    x ∈ primesBelow n ↔ Nat.Prime x ∧ x < n := by
  unfold primesBelow
  rw [List.mem_filter, List.mem_range]
  constructor
  · rintro ⟨h1, h2⟩
    exact ⟨by simpa using h2, h1⟩
  · rintro ⟨h1, h2⟩
    exact ⟨h2, by simpa using h1⟩

/-- For composite `n`, the primes up to `n` are the primes below `n`. -/
theorem primesUpTo_eq_primesBelow (n : Nat) (h : ¬Nat.Prime n) :
    primesUpTo n = primesBelow n := by
  unfold primesUpTo primesBelow
  rw [List.range_succ, List.filter_append]
  have hn : (List.filter (fun i => decide (Nat.Prime i)) [n]) = [] := by
    simp [h]
  rw [hn, List.append_nil]

theorem setPass_subset (n : Nat) (s : List Nat) (p i : Nat)
    (h : decide (i ∈ setPass n s p) = true) : decide (i ∈ s) = true := by
  unfold setPass at h
  by_cases hp : p ∈ s
  · rw [if_pos hp] at h
    unfold setRemove at h
    simp only [decide_eq_true_eq] at h ⊢
    exact List.mem_of_mem_filter h
  · rwa [if_neg hp] at h

theorem setPass_prime_stable (n : Nat) (s : List Nat) (p i : Nat)
    (hp : 2 ≤ p) (hi : Nat.Prime i) (h : decide (i ∈ s) = true) :
    decide (i ∈ setPass n s p) = true := by
  unfold setPass
  simp only [decide_eq_true_eq] at h ⊢
  by_cases hps : p ∈ s
  · rw [if_pos hps]
    unfold setRemove
    rw [List.mem_filter]
    refine ⟨h, ?_⟩
    simp only [Bool.not_eq_eq_eq_not, Bool.not_true, decide_eq_false_iff_not]
    rintro ⟨h1, _, h3⟩
    have hdvd : p ∣ i := Nat.dvd_of_mod_eq_zero h3
    rcases (Nat.Prime.eq_one_or_self_of_dvd hi p hdvd) with h4 | h4
    · omega
    · omega
  · rwa [if_neg hps]

theorem setPass_clears (n : Nat) (s : List Nat) (p m : Nat)
    (hC : 2 ≤ p ∧ p + p ≤ m ∧ m ≤ n ∧ p ∣ m)
    (hp : decide (p ∈ s) = true) : decide (m ∈ setPass n s p) = false := by
  obtain ⟨hp2, hm1, hm2, hdvd⟩ := hC
  simp only [decide_eq_true_eq] at hp
  unfold setPass
  rw [if_pos hp]
  unfold setRemove
  simp only [decide_eq_false_iff_not]
  intro hmem
  rw [List.mem_filter] at hmem
  obtain ⟨_, hpred⟩ := hmem
  simp only [Bool.not_eq_eq_eq_not, Bool.not_true, decide_eq_false_iff_not] at hpred
  exact hpred ⟨hm1, hm2, Nat.mod_eq_zero_of_dvd hdvd⟩

theorem foldl_setPass_sorted (n : Nat) :
    ∀ (l : List Nat) (s : List Nat), s.Pairwise (· < ·) →
      (l.foldl (setPass n) s).Pairwise (· < ·) := by
  intro l
  induction l with
  | nil => intro s h; simpa using h
  | cons q t ih =>
    intro s h
    apply ih
    unfold setPass
    by_cases hq : q ∈ s
    · rw [if_pos hq]
      exact h.sublist (List.filter_sublist s)
    · rwa [if_neg hq]

/-- The sorted list stored by `SetSieve._extend` from the base `[2, 3]` for
`n ≥ 4` is exactly the list of primes `≤ n`. -/
theorem setExtendData_eq (n : Nat) (hn : 4 ≤ n) :
    setExtendData [2, 3] n = primesUpTo n := by
  unfold setExtendData
  simp only [List.getLast?_cons_cons, List.getLast?_singleton, Option.getD_some]
  rw [if_neg (by omega)]
  set s0 : List Nat := [2, 3] ++ List.range' (3 + 1) (n - 3) with hs0
  set sF : List Nat := (pRange n).foldl (setPass n) s0 with hsF
  have hmem0 : ∀ x, x ∈ s0 ↔ 2 ≤ x ∧ x ≤ n := by
    intro x
    rw [hs0]
    simp only [List.mem_cons, List.mem_append, List.not_mem_nil, or_false,
      List.mem_range']
    constructor
    · rintro ((rfl | rfl) | ⟨i, hi, rfl⟩) <;> omega
    · rintro ⟨h1, h2⟩
      rcases Nat.lt_or_ge x 4 with h | h
      · interval_cases x
        · exact Or.inl (Or.inl rfl)
        · exact Or.inl (Or.inr rfl)
      · exact Or.inr ⟨x - 4, by omega, by omega⟩
  have hsorted0 : s0.Pairwise (· < ·) := by
    rw [hs0]
    rw [show ([2, 3] ++ List.range' (3 + 1) (n - 3) : List Nat) =
      [2, 3] ++ List.range' (3 + 1) (n - 3) from rfl, List.pairwise_append]
    refine ⟨by decide, List.pairwise_lt_range' _ _, ?_⟩
    intro x hx y hy
    rw [List.mem_range'] at hy
    obtain ⟨i, hi, rfl⟩ := hy
    simp only [List.mem_cons, List.not_mem_nil, or_false] at hx
    rcases hx with rfl | rfl <;> omega
  have hmemF : ∀ x, x ∈ sF ↔ Nat.Prime x ∧ x ≤ n := by
    intro x
    constructor
    · intro hx
      have hx0 : x ∈ s0 := by
        by_contra hxs
        have hd : decide (x ∈ s0) = false := by simpa using hxs
        have hst := foldl_false_stable (fun s i => decide (i ∈ s)) (setPass n)
          (setPass_subset n) (pRange n) s0 x hd
        rw [← hsF] at hst
        simp only [decide_eq_false_iff_not] at hst
        exact hst hx
      have hx2 : 2 ≤ x ∧ x ≤ n := (hmem0 x).mp hx0
      refine ⟨?_, hx2.2⟩
      by_contra hnp
      obtain ⟨p, hp, hpd, hpsq⟩ := exists_small_prime_divisor x hx2.1 hnp
      have hp2 : 2 ≤ p := hp.two_le
      have hplt : p < x := by
        rcases Nat.lt_or_ge p x with h | h
        · exact h
        · have : p = x := Nat.le_antisymm (Nat.le_of_dvd (by omega) hpd) h
          subst this
          exact absurd hp hnp
      have hclear := foldl_clears (fun s i => decide (i ∈ s)) (setPass n)
        (fun p m => 2 ≤ p ∧ p + p ≤ m ∧ m ≤ n ∧ p ∣ m)
        (setPass_subset n) (setPass_prime_stable n) (setPass_clears n)
        (pRange n) s0 p x (pRange_ge_two n)
        ((mem_pRange n p).mpr ⟨hp2, Nat.le_sqrt.mpr (by omega)⟩) hp
        (by
          simp only [decide_eq_true_eq]
          refine (hmem0 p).mpr ⟨hp2, ?_⟩
          have := Nat.sqrt_le_self n
          have := Nat.le_sqrt.mpr (show p * p ≤ n by omega)
          omega)
        ⟨hp2, by nlinarith, hx2.2, hpd⟩
      rw [← hsF] at hclear
      simp only [decide_eq_true_eq] at hclear
      rw [decide_eq_false_iff_not] at hclear
      exact hclear hx
    · rintro ⟨hprime, hle⟩
      have h0 : decide (x ∈ s0) = true := by
        simp only [decide_eq_true_eq]
        exact (hmem0 x).mpr ⟨hprime.two_le, hle⟩
      have := foldl_prime_stable (fun s i => decide (i ∈ s)) (setPass n)
        (setPass_prime_stable n) (pRange n) s0 x (pRange_ge_two n) hprime h0
      rw [← hsF] at this
      simpa using this
  have hsortedF : sF.Pairwise (· < ·) := foldl_setPass_sorted n (pRange n) s0 hsorted0
  have hsortEq : sF.insertionSort (· ≤ ·) = sF :=
    List.Sorted.insertionSort_eq (hsortedF.imp le_of_lt)
  rw [hsortEq]
  apply sorted_lt_eq_of_mem_iff hsortedF (primesUpTo_sorted n)
  intro x
  rw [hmemF x, mem_primesUpTo]

/-- `SetSieve.from_size` for `n ≥ 4`: the stored data is the primes `≤ n`,
so `count` and `primes()` are those of the primes up to and including `n`. -/
theorem setFromSize_ok (n : Nat) (hn : 4 ≤ n) :
    setFromSize n = .ok ⟨n, primesUpTo n⟩ ∧
      setCount ⟨n, primesUpTo n⟩ = (primesUpTo n).length ∧
      setPrimes ⟨n, primesUpTo n⟩ = (primesUpTo n).map some := by
  refine ⟨?_, rfl, ?_⟩
  · unfold setFromSize
    rw [if_neg (by omega), setExtendData_eq n hn]
  · unfold setPrimes setCount
    exact map_range'_get (primesUpTo n)

theorem testBit_clearBit (x m i : Nat) :
    (clearBit x m).testBit i = if i = m then false else x.testBit i := by
  unfold clearBit
  rcases hb : x.testBit m with _ | _
  · rw [if_neg (by simp)]
    by_cases him : i = m
    · subst him
      rw [if_pos rfl, hb]
    · rw [if_neg him]
  · rw [if_pos rfl]
    have h2 : x.testBit m = decide (x / 2 ^ m % 2 = 1) := Nat.testBit_to_div_mod
    rw [hb] at h2
    have hchar : x / 2 ^ m % 2 = 1 := by
      have h3 := h2.symm
      simpa using h3
    set q := x / 2 ^ (m + 1) with hq
    set r := x % 2 ^ m with hr
    have hrlt : r < 2 ^ m := Nat.mod_lt x (Nat.pos_pow_of_pos m (by omega))
    clear_value q r
    have hmod : x % 2 ^ (m + 1) = r + 2 ^ m := by
      have h1 : x % (2 ^ m * 2) = x % 2 ^ m + 2 ^ m * (x / 2 ^ m % 2) := Nat.mod_mul
      rw [hchar] at h1
      have hpw : (2 : Nat) ^ (m + 1) = 2 ^ m * 2 := by ring
      rw [hpw, h1]
      omega
    have hdm := Nat.div_add_mod x (2 ^ (m + 1))
    rw [← hq, hmod] at hdm
    have hx : x = 2 ^ (m + 1) * q + r + 2 ^ m := by omega
    have hxm : 2 ^ m ≤ x := by omega
    have hy : x - 2 ^ m = 2 ^ (m + 1) * q + r := by omega
    rcases Nat.lt_trichotomy i m with him | him | him
    · rw [if_neg (by omega)]
      have hsplit : (2 : Nat) ^ m = 2 ^ i * 2 ^ (m - i) := by
        rw [← pow_add]
        congr 1
        omega
      have hxy : x = (x - 2 ^ m) + 2 ^ i * 2 ^ (m - i) := by
        rw [← hsplit]
        exact (Nat.sub_add_cancel hxm).symm
      have hdiveq : x / 2 ^ i = (x - 2 ^ m) / 2 ^ i + 2 ^ (m - i) := by
        conv_lhs => rw [hxy]
        rw [Nat.add_mul_div_left _ _ (Nat.pos_pow_of_pos i (by omega))]
      have heven : (2 : Nat) ^ (m - i) % 2 = 0 := by
        have hmi : (2 : Nat) ^ (m - i) = 2 * 2 ^ (m - i - 1) := by
          rw [← pow_succ']
          congr 1
          omega
        omega
      rw [Nat.testBit_to_div_mod, Nat.testBit_to_div_mod, hdiveq, decide_eq_decide]
      generalize hE : (2 : Nat) ^ (m - i) = E at heven ⊢
      generalize hA : (x - 2 ^ m) / 2 ^ i = A
      omega
    · subst him
      rw [if_pos rfl]
      have hxy : x = (x - 2 ^ i) + 2 ^ i * 1 := by omega
      have hdiveq : x / 2 ^ i = (x - 2 ^ i) / 2 ^ i + 1 := by
        conv_lhs => rw [hxy]
        rw [Nat.add_mul_div_left _ _ (Nat.pos_pow_of_pos i (by omega))]
      rw [Nat.testBit_to_div_mod]
      simp only [decide_eq_false_iff_not]
      omega
    · rw [if_neg (by omega)]
      have hyq : (x - 2 ^ m) / 2 ^ (m + 1) = q := by
        rw [hy, Nat.mul_add_div (Nat.pos_pow_of_pos (m + 1) (by omega))]
        have hr1 : r / 2 ^ (m + 1) = 0 := Nat.div_eq_of_lt (by
          have hlt : (2 : Nat) ^ m < 2 ^ (m + 1) := by
            have hp := Nat.pos_pow_of_pos m (show 0 < 2 by omega)
            have : (2 : Nat) ^ (m + 1) = 2 ^ m * 2 := by ring
            omega
          omega)
        omega
      have hsplit : ∀ z : Nat, z / 2 ^ i = z / 2 ^ (m + 1) / 2 ^ (i - m - 1) := by
        intro z
        rw [Nat.div_div_eq_div_mul, ← pow_add]
        congr 2
        omega
      rw [Nat.testBit_to_div_mod, Nat.testBit_to_div_mod, hsplit x,
        hsplit (x - 2 ^ m), hyq, ← hq]

theorem mem_multList (p n m : Nat) (hp : 2 ≤ p) :
    m ∈ multList p n ↔ p ∣ m ∧ p + p ≤ m ∧ m ≤ n := by
  unfold multList
  rw [List.mem_range']
  constructor
  · rintro ⟨i, hi, rfl⟩
    have hple : (i + 1) * p ≤ n + 1 - (p + p) + (p - 1) :=
      (Nat.le_div_iff_mul_le (by omega)).mp hi
    have hexp : (i + 1) * p = p * i + p := by ring
    rw [hexp] at hple
    refine ⟨⟨2 + i, by ring⟩, by omega, ?_⟩
    generalize hB : p * i = B at hple ⊢
    omega
  · rintro ⟨⟨c, rfl⟩, h1, h2⟩
    have hc2 : 2 ≤ c := by
      by_contra hc
      push_neg at hc
      interval_cases c <;> omega
    obtain ⟨d, rfl⟩ : ∃ d, c = d + 2 := ⟨c - 2, by omega⟩
    have hpd : p * (d + 2) = p * d + p + p := by ring
    rw [hpd] at h2 ⊢
    refine ⟨d, ?_, by ring⟩
    apply (Nat.le_div_iff_mul_le (show 0 < p by omega)).mpr
    have hexp : (d + 1) * p = p * d + p := by ring
    rw [hexp]
    generalize hB : p * d = B at h2 ⊢
    omega

theorem testBit_foldl_clearBit :
    ∀ (l : List Nat) (x : Nat) (i : Nat),
      ((l.foldl clearBit x).testBit i) = (x.testBit i && !(decide (i ∈ l))) := by
  intro l
  induction l with
  | nil => intro x i; simp
  | cons a t ih =>
    intro x i
    rw [List.foldl_cons, ih, testBit_clearBit]
    by_cases hia : i = a
    · subst hia
      simp
    · simp [hia]

theorem testBit_intClear (x p n i : Nat) (hp : 2 ≤ p) :
    (intClear x p n).testBit i =
      (x.testBit i && !(decide (p ∣ i ∧ p + p ≤ i ∧ i ≤ n))) := by
  unfold intClear
  rw [testBit_foldl_clearBit]
  rw [show decide (i ∈ multList p n) = decide (p ∣ i ∧ p + p ≤ i ∧ i ≤ n) by
    simp [mem_multList p n i hp]]

theorem natBits_getD_eq_testBit (x i : Nat) :
    (natBits x).getD i false = x.testBit i := by
  rw [natBits_getD, Nat.testBit_to_div_mod]

theorem testBit_true_lt_bitLen (x i : Nat) (h : x.testBit i = true) :
    i < bitLen x := by
  by_contra hc
  push_neg at hc
  have hd : (natBits x).getD i false = false :=
    List.getD_eq_default _ _ hc
  rw [natBits_getD_eq_testBit, h] at hd
  exact Bool.noConfusion hd

theorem intPass_true_of (n : Nat) (x : Nat) (p i : Nat)
    (h : (intPass n x p).testBit i = true) : x.testBit i = true := by
  unfold intPass at h
  rcases hb : x.testBit p with _ | _ <;> rw [hb] at h
  · simpa using h
  · simp only [if_true] at h
    unfold intClear at h
    rw [testBit_foldl_clearBit] at h
    exact (Bool.and_eq_true_iff.mp h).1

theorem intPass_prime_stable (n : Nat) (x : Nat) (p i : Nat)
    (hp : 2 ≤ p) (hi : Nat.Prime i) (h : x.testBit i = true) :
    (intPass n x p).testBit i = true := by
  unfold intPass
  rcases hb : x.testBit p with _ | _
  · simpa using h
  · simp only [if_true]
    rw [testBit_intClear x p n i hp, h]
    simp only [Bool.true_and, Bool.not_eq_true', decide_eq_false_iff_not]
    rintro ⟨hdvd, h2p, _⟩
    rcases (Nat.Prime.eq_one_or_self_of_dvd hi p hdvd) with h4 | h4 <;> omega

theorem intPass_clears (n : Nat) (x : Nat) (p m : Nat)
    (hC : 2 ≤ p ∧ p ∣ m ∧ p + p ≤ m ∧ m ≤ n)
    (hp : x.testBit p = true) : (intPass n x p).testBit m = false := by
  obtain ⟨hp2, hdvd, hm1, hm2⟩ := hC
  unfold intPass
  rw [hp, if_pos rfl, testBit_intClear x p n m hp2]
  simp [hdvd, hm1, hm2]

theorem testBit_intBase (i : Nat) :
    intBase.testBit i = decide (i = 2 ∨ i = 3) := by
  rcases Nat.lt_or_ge i 4 with h | h
  · interval_cases i <;> decide
  · have hlt : intBase < 2 ^ i := by
      have h16 : (2 : Nat) ^ 4 ≤ 2 ^ i := Nat.pow_le_pow_right (by omega) h
      have : intBase < 2 ^ 4 := by decide
      omega
    rw [Nat.testBit_eq_false_of_lt hlt]
    have hd : decide (i = 2 ∨ i = 3) = false := by
      simp only [decide_eq_false_iff_not]
      omega
    rw [hd]

/-- After `IntSieve._extend` from the base sieve, bit `i` is set iff `i` is a
prime at most `n` (for `n ≥ 4`). -/
theorem intExtend_testBit (n : Nat) (hn : 4 ≤ n) :
    ∀ i, (intExtend intBase (bitLen intBase) n).1.testBit i =
      decide (Nat.Prime i ∧ i ≤ n) := by
  have hbl : bitLen intBase = 4 := by decide
  by_cases hle : n ≤ 4
  · have hn4 : n = 4 := by omega
    subst hn4
    have hstep : intExtend intBase (bitLen intBase) 4 = (intBase, bitLen intBase) := by
      unfold intExtend
      rw [if_pos (by decide)]
    rw [hstep]
    intro i
    rw [testBit_intBase]
    rcases Nat.lt_or_ge i 5 with h | h
    · interval_cases i <;> simp <;> decide
    · have h1 : ¬(i = 2 ∨ i = 3) := by omega
      have h2 : ¬(Nat.Prime i ∧ i ≤ 4) := by
        rintro ⟨_, h3⟩
        omega
      simp [h1, h2]
  · have hstep : intExtend intBase (bitLen intBase) n =
        ((pRange n).foldl (intPass n)
          (intBase ||| ((2 ^ ((n - bitLen intBase) + 1) - 1) <<< (bitLen intBase))), n) := by
      unfold intExtend
      rw [if_neg (by rw [hbl]; omega)]
    rw [hstep, hbl]
    set x1 : Nat := intBase ||| ((2 ^ (n - 4 + 1) - 1) <<< 4) with hx1
    have hx1bit : ∀ i, x1.testBit i = decide (2 ≤ i ∧ i ≤ n) := by
      intro i
      rw [hx1, Nat.testBit_lor, Nat.testBit_shiftLeft, testBit_intBase,
        Nat.testBit_two_pow_sub_one]
      rcases Nat.lt_or_ge i 4 with h | h
      · interval_cases i <;> simp <;> omega
      · have h2 : decide (i = 2 ∨ i = 3) = false := by
          simp only [decide_eq_false_iff_not]
          omega
        have h3 : decide (i ≥ 4) = true := by
          simp only [decide_eq_true_eq]
          omega
        rw [h2, h3]
        simp only [Bool.false_or, Bool.true_and, decide_eq_decide]
        omega
    intro i
    rcases hdec : decide (Nat.Prime i ∧ i ≤ n) with _ | _
    · simp only [decide_eq_false_iff_not] at hdec
      rcases Nat.lt_or_ge i 2 with hi2 | hi2
      · have h0 : x1.testBit i = false := by
          rw [hx1bit]
          simp only [decide_eq_false_iff_not]
          omega
        exact foldl_false_stable (fun x j => x.testBit j) (intPass n)
          (intPass_true_of n) (pRange n) x1 i h0
      · by_cases hile : i ≤ n
        · have hnp : ¬Nat.Prime i := fun hp => hdec ⟨hp, hile⟩
          obtain ⟨p, hp, hpd, hpsq⟩ := exists_small_prime_divisor i hi2 hnp
          have hp2 : 2 ≤ p := hp.two_le
          apply foldl_clears (fun x j => x.testBit j) (intPass n)
            (fun p m => 2 ≤ p ∧ p ∣ m ∧ p + p ≤ m ∧ m ≤ n)
            (intPass_true_of n) (intPass_prime_stable n) (intPass_clears n)
            (pRange n) x1 p i (pRange_ge_two n)
            ((mem_pRange n p).mpr ⟨hp2, Nat.le_sqrt.mpr (by omega)⟩) hp
          · rw [hx1bit]
            simp only [decide_eq_true_eq]
            refine ⟨hp2, ?_⟩
            have hs := Nat.sqrt_le_self n
            have hps := Nat.le_sqrt.mpr (show p * p ≤ n by omega)
            omega
          · exact ⟨hp2, hpd, by nlinarith, hile⟩
        · have h0 : x1.testBit i = false := by
            rw [hx1bit]
            simp only [decide_eq_false_iff_not]
            omega
          exact foldl_false_stable (fun x j => x.testBit j) (intPass n)
            (intPass_true_of n) (pRange n) x1 i h0
    · simp only [decide_eq_true_eq] at hdec
      obtain ⟨hiprime, hile⟩ := hdec
      apply foldl_prime_stable (fun x j => x.testBit j) (intPass n)
        (intPass_prime_stable n) (pRange n) x1 i (pRange_ge_two n) hiprime
      rw [hx1bit]
      simp only [decide_eq_true_eq]
      exact ⟨hiprime.two_le, hile⟩

theorem natBits_last_true (x : Nat) (hx : x ≠ 0) :
    (natBits x).getD ((natBits x).length - 1) false = true := by
  induction x using Nat.strong_induction_on with
  | _ x ih =>
    have hpos : 0 < x := Nat.pos_of_ne_zero hx
    rw [natBits_pos x hpos]
    by_cases h2 : x / 2 = 0
    · have hx1 : x = 1 := by omega
      subst hx1
      decide
    · have hlen : (natBits (x / 2)).length ≠ 0 := by
        intro hc
        have := natBits_pos (x / 2) (Nat.pos_of_ne_zero h2)
        rw [this] at hc
        simp at hc
      have hrec := ih (x / 2) (Nat.div_lt_self hpos (by omega)) h2
      have harith : (decide (x % 2 = 1) :: natBits (x / 2)).length - 1 =
          ((natBits (x / 2)).length - 1) + 1 := by
        simp only [List.length_cons]
        omega
      rw [harith, List.getD_cons_succ]
      exact hrec

/-- `IntSieve.from_size` for `n ≥ 4`: the bitmap holds exactly the primes
`≤ n`, so `count` and `primes()` are those of the primes up to `n`. -/
theorem intFromSize_ok (n : Nat) (hn : 4 ≤ n) :
    ∃ v : IntInstance, intFromSize n = .ok v ∧
      v.count = (primesUpTo n).length ∧
      intPrimes v = (primesUpTo n).map some := by
  set xF : Nat := (intExtend intBase (bitLen intBase) n).1 with hxF
  have hchar := intExtend_testBit n hn
  rw [← hxF] at hchar
  have hne : xF ≠ 0 := by
    intro h0
    have hb2 := hchar 2
    rw [h0, Nat.zero_testBit] at hb2
    have : Nat.Prime 2 ∧ 2 ≤ n := ⟨by norm_num, by omega⟩
    simp [this] at hb2
  set len : Nat := (natBits xF).length with hlen
  have hlen1 : 1 ≤ len := by
    rw [hlen, natBits_pos xF (Nat.pos_of_ne_zero hne)]
    simp
  have hlenle : len ≤ n + 1 := by
    have hlast := natBits_last_true xF hne
    rw [natBits_getD_eq_testBit, ← hlen] at hlast
    rw [hchar (len - 1)] at hlast
    simp only [decide_eq_true_eq] at hlast
    omega
  have hstep1 : trueIndices (natBits xF) =
      (List.range len).filter (fun i => decide (Nat.Prime i ∧ i ≤ n)) := by
    have h := trueIndices_eq_filter (fun i => Nat.Prime i ∧ i ≤ n) (natBits xF) ?_
    · rw [h, ← hlen]
    · intro i _
      rw [natBits_getD_eq_testBit, hchar i]
  have hstep3 : (List.range (n + 1)).filter (fun i => decide (Nat.Prime i ∧ i ≤ n)) =
      (List.range len).filter (fun i => decide (Nat.Prime i ∧ i ≤ n)) := by
    have hr : List.range (n + 1) = List.range len ++ (List.range (n + 1 - len)).map (len + ·) := by
      rw [← List.range_add]
      congr 1
      omega
    rw [hr, List.filter_append]
    have hnil : ((List.range (n + 1 - len)).map (len + ·)).filter
        (fun i => decide (Nat.Prime i ∧ i ≤ n)) = [] := by
      rw [List.filter_eq_nil_iff]
      intro a ha
      rw [List.mem_map] at ha
      obtain ⟨j, _, rfl⟩ := ha
      simp only [decide_eq_true_eq, not_and]
      intro hprime hle
      have hbit : xF.testBit (len + j) = true := by
        rw [hchar]
        simp [hprime, hle]
      have := testBit_true_lt_bitLen xF (len + j) hbit
      unfold bitLen at this
      rw [← hlen] at this
      omega
    rw [hnil, List.append_nil]
  have hstep4 : primesUpTo n =
      (List.range (n + 1)).filter (fun i => decide (Nat.Prime i ∧ i ≤ n)) := by
    unfold primesUpTo primesBelow
    apply List.filter_congr
    intro i hi
    rw [List.mem_range] at hi
    simp only [decide_eq_decide]
    constructor
    · intro h
      exact ⟨h, by omega⟩
    · intro h
      exact h.1
  have htrue : trueIndices (natBits xF) = primesUpTo n := by
    rw [hstep1, hstep4, hstep3]
  have hcount : popcount xF = (primesUpTo n).length := by
    unfold popcount
    rw [count_eq_length_trueIndices, htrue]
  refine ⟨⟨xF, (intExtend intBase (bitLen intBase) n).2, popcount xF⟩, ?_, hcount, ?_⟩
  · unfold intFromSize
    rw [if_neg (by omega)]
  · unfold intPrimes
    simp only [hcount]
    have hcong : ∀ k ∈ List.range' 1 (primesUpTo n).length,
        bitIndex xF k = (primesUpTo n).get? (k - 1) := by
      intro k hkmem
      rw [List.mem_range'] at hkmem
      obtain ⟨i, hi, rfl⟩ := hkmem
      have h1 : 1 + 1 * i = i + 1 := by omega
      unfold bitIndex
      rw [h1]
      have h2 : i + 1 - 1 = i := by omega
      rw [h2, kthTrueIdx_eq_get, htrue]
    rw [List.map_congr_left hcong]
    exact map_range'_get (primesUpTo n)

/-! ## Claim C2 (cross-representation agreement) -/

/-- Claim C2 counterexample: at `n = 5` the three representations disagree.
`BaSieve.from_size(5)` reports `count = 2` and primes `[2, 3]` (its count
slices `_common_data[:5]`, dropping the prime 5), while `SetSieve` and
`IntSieve` report `count = 3` and primes `[2, 3, 5]`.  (At `n = 2` they
disagree too: 0 versus 2 versus 2.) -/
theorem claim_C2_counterexample :
    (baFromSize baInit 5).map (fun x => x.2.count) = .ok 2 ∧
    (setFromSize 5).map (fun v => setCount v) = .ok 3 ∧
    (intFromSize 5).map (fun v => v.count) = .ok 3 ∧
    (baFromSize baInit 2).map (fun x => x.2.count) = .ok 0 ∧
    (setFromSize 2).map (fun v => setCount v) = .ok 2 ∧
    (intFromSize 2).map (fun v => v.count) = .ok 2 := by
  refine ⟨by decide, by decide, by decide, by decide, by decide⟩

/-- Claim C2 (amended): the three sieve representations produce identical
`count` values and identical `primes()` sequences for every *composite*
`n ≥ 4`.  (For `n = 2, 3` and for prime `n`, `BaSieve` differs from the
other two because it counts only primes strictly below `n`; see the
counterexample.) -/
theorem claim_C2 (n : Nat) (hn : 4 ≤ n) (hnp : ¬Nat.Prime n) :
    ∃ c s t u, baFromSize baInit n = .ok (c, s) ∧ setFromSize n = .ok t ∧
      intFromSize n = .ok u ∧
      s.count = setCount t ∧ setCount t = u.count ∧
      baPrimes c s = setPrimes t ∧ setPrimes t = intPrimes u := by
  obtain ⟨c, s, hba, _, _, _, hbcount, hbprimes⟩ :=
    baFromSize_ok baInit baInit_inv n (by omega)
  obtain ⟨hset, hscount, hsprimes⟩ := setFromSize_ok n hn
  obtain ⟨u, hint, hicount, hiprimes⟩ := intFromSize_ok n hn
  have hpeq : primesUpTo n = primesBelow n := primesUpTo_eq_primesBelow n hnp
  refine ⟨c, s, ⟨n, primesUpTo n⟩, u, hba, hset, hint, ?_, ?_, ?_, ?_⟩
  · rw [hbcount, hscount, hpeq]
  · rw [hscount, hicount]
  · rw [hbprimes, hsprimes, hpeq]
  · rw [hsprimes, hiprimes]

/-- Claim C2 witness: agreement at the composite size 30. -/
theorem claim_C2_witness :
    4 ≤ 30 ∧ ¬Nat.Prime 30 ∧
    ∃ c s t u, baFromSize baInit 30 = .ok (c, s) ∧ setFromSize 30 = .ok t ∧
      intFromSize 30 = .ok u ∧
      s.count = setCount t ∧ setCount t = u.count ∧
      baPrimes c s = setPrimes t ∧ setPrimes t = intPrimes u :=
  ⟨by decide, by decide, claim_C2 30 (by decide) (by decide)⟩

/-- Casts below the modulus are injective. -/
theorem natCast_inj_of_lt (m x y : Nat) (hx : x < m) (hy : y < m)
    (h : (x : ZMod m) = (y : ZMod m)) : x = y := by
  have h1 := ZMod.val_cast_of_lt hx
  have h2 := ZMod.val_cast_of_lt hy
  rw [← h1, ← h2, h]

theorem powMod_eq_one_iff (b e m : Nat) (hm : 1 < m) :
    powMod b e m = 1 ↔ ((b : ZMod m)) ^ e = 1 := by
  haveI : NeZero m := ⟨by omega⟩
  rw [powMod_eq]
  constructor
  · intro h
    have hcast : (((b ^ e % m : Nat)) : ZMod m) = ((1 : Nat) : ZMod m) := by
      rw [h]
    rw [ZMod.natCast_mod] at hcast
    push_cast at hcast
    exact hcast
  · intro h
    apply natCast_inj_of_lt m _ _ (Nat.mod_lt _ (by omega)) hm
    rw [ZMod.natCast_mod]
    push_cast
    rw [h]

theorem sqrtmodPrime_spec (a2 m : Nat) (hm : 1 < m) (ha2 : a2 < m)
    (hsq : IsSquare ((a2 : ZMod m))) :
    sqrtmodPrime a2 m * sqrtmodPrime a2 m % m = a2 ∧ sqrtmodPrime a2 m < m := by
  haveI : NeZero m := ⟨by omega⟩
  obtain ⟨y, hy⟩ := hsq
  set w : Nat := y.val with hw
  have hwlt : w < m := ZMod.val_lt y
  have hwcast : ((w : Nat) : ZMod m) = y := ZMod.natCast_rightInverse y
  have hwpred : w * w % m = a2 % m := by
    apply natCast_inj_of_lt m _ _ (Nat.mod_lt _ (by omega)) (Nat.mod_lt _ (by omega))
    rw [ZMod.natCast_mod, ZMod.natCast_mod]
    push_cast
    rw [hwcast, ← hy]
  unfold sqrtmodPrime
  rcases hf : (List.range m).find? (fun r => decide (r * r % m = a2 % m)) with _ | r
  · exfalso
    have hnone := List.find?_eq_none.mp hf w (List.mem_range.mpr hwlt)
    simp only [decide_eq_true_eq] at hnone
    exact hnone hwpred
  · have hpred := List.find?_some hf
    simp only [decide_eq_true_eq] at hpred
    have hmem : r ∈ List.range m := List.mem_of_find?_eq_some hf
    rw [List.mem_range] at hmem
    have ha2m : a2 % m = a2 := Nat.mod_eq_of_lt ha2
    rw [ha2m] at hpred
    exact ⟨by simpa using hpred, by simpa using hmem⟩

/-- Claim C7 (amended): `mod_sqrt(a, m)` returns `[a % 2]` for `m = 2`,
`[0]` for `m = 3`, raises for `m < 2`; for prime `m > 3` it returns `[0]`
when `a ≡ 0 (mod m)` (an extra special case the original claim's
Euler-criterion dichotomy misses — see the counterexample), and otherwise
the Euler criterion `a^((m-1)/2) ≡ 1` decides squareness: a two-element
list `[r, m - r]` of square roots of `a` for residues, `[]` for
non-residues.  In particular `mod_sqrt(58, 101) = [19, 82]`. -/
theorem claim_C7 :
    (∀ a, modSqrt a 2 = .ok [a % 2]) ∧
    (∀ a, modSqrt a 3 = .ok [0]) ∧
    (∀ a m, m < 2 → modSqrt a m = .error "modulus must be prime") ∧
    (∀ a m, Nat.Prime m → 3 < m → a % m = 0 → modSqrt a m = .ok [0]) ∧
    (∀ a m, Nat.Prime m → 3 < m → a % m ≠ 0 →
      (powMod (a % m) ((m - 1) / 2) m = 1 ↔ IsSquare ((a : ZMod m))) ∧
      (IsSquare ((a : ZMod m)) →
        ∃ r, modSqrt a m = .ok [r, m - r] ∧ 1 ≤ r ∧ r < m ∧
          r * r % m = a % m ∧ (m - r) * (m - r) % m = a % m) ∧
      (¬IsSquare ((a : ZMod m)) → modSqrt a m = .ok [])) ∧
    modSqrt 58 101 = .ok [19, 82] := by
  have hunfold : ∀ a m, Nat.Prime m → 3 < m → a ≠ 1 → modSqrt a m =
      (if a % m = 0 then .ok [0]
       else if powMod (a % m) ((m - 1) / 2) m ≠ 1 then .ok []
       else .ok [sqrtmodPrime (a % m) m, (m - sqrtmodPrime (a % m) m) % m]) := by
    intro a m _ h3 ha1
    unfold modSqrt
    rw [if_neg (by omega), if_neg (by omega), if_neg (by omega), if_neg ha1]
  have heuler : ∀ a m, Nat.Prime m → 3 < m → a % m ≠ 0 →
      (powMod (a % m) ((m - 1) / 2) m = 1 ↔ IsSquare ((a : ZMod m))) := by
    intro a m hm h3 ha
    haveI := Fact.mk hm
    have hne : ((a : ZMod m)) ≠ 0 := by
      intro h0
      rw [← ZMod.natCast_mod] at h0
      have := natCast_inj_of_lt m (a % m) 0 (Nat.mod_lt _ (by omega)) (by omega)
        (by rw [h0]; push_cast; rfl)
      exact ha this
    have hhalf : (m - 1) / 2 = m / 2 := by
      have hodd : Odd m := hm.odd_of_ne_two (by omega)
      obtain ⟨k, hk⟩ := hodd
      omega
    rw [hhalf, powMod_eq_one_iff _ _ _ (by omega), ZMod.natCast_mod]
    exact (ZMod.euler_criterion m hne).symm
  refine ⟨?_, ?_, ?_, ?_, ?_, ?_⟩
  · intro a
    unfold modSqrt
    rw [if_pos rfl]
  · intro a
    unfold modSqrt
    rw [if_neg (by omega), if_pos rfl]
  · intro a m hm
    unfold modSqrt
    rw [if_neg (by omega), if_neg (by omega), if_pos hm]
  · intro a m hm h3 ha
    have ha1 : a ≠ 1 := by
      intro h1
      subst h1
      rw [Nat.mod_eq_of_lt (by omega)] at ha
      omega
    rw [hunfold a m hm h3 ha1, if_pos ha]
  · intro a m hm h3 ha
    haveI := Fact.mk hm
    refine ⟨heuler a m hm h3 ha, ?_, ?_⟩
    · intro hsq
      by_cases ha1 : a = 1
      · subst ha1
        refine ⟨1, ?_, by omega, by omega, ?_, ?_⟩
        · unfold modSqrt
          rw [if_neg (by omega), if_neg (by omega), if_neg (by omega), if_pos rfl]
        · norm_num
        · rw [Nat.mod_eq_of_lt (show (1 : Nat) < m by omega)]
          apply natCast_inj_of_lt m _ _ (Nat.mod_lt _ (by omega)) (by omega)
          rw [ZMod.natCast_mod]
          push_cast [Nat.cast_sub (show 1 ≤ m by omega)]
          rw [ZMod.natCast_self]
          ring
      · have hsq2 : IsSquare (((a % m : Nat) : ZMod m)) := by
          rwa [ZMod.natCast_mod]
        obtain ⟨hr1, hr2⟩ := sqrtmodPrime_spec (a % m) m (by omega)
          (Nat.mod_lt _ (by omega)) hsq2
        set r : Nat := sqrtmodPrime (a % m) m with hrdef
        have hrne : r ≠ 0 := by
          intro h0
          rw [h0] at hr1
          simp only [Nat.zero_mul, Nat.zero_mod] at hr1
          exact ha hr1.symm
        refine ⟨r, ?_, by omega, hr2, by rw [hr1], ?_⟩
        · rw [hunfold a m hm h3 ha1, if_neg ha, if_neg ?_]
          · rw [Nat.mod_eq_of_lt (show m - r < m by omega)]
          · rw [not_not, heuler a m hm h3 ha]
            exact hsq
        · apply natCast_inj_of_lt m _ _ (Nat.mod_lt _ (by omega))
            (Nat.mod_lt _ (by omega))
          rw [ZMod.natCast_mod, ZMod.natCast_mod]
          push_cast [Nat.cast_sub (show r ≤ m by omega)]
          rw [ZMod.natCast_self]
          have hcast : (((r * r : Nat)) : ZMod m) = ((a : Nat) : ZMod m) := by
            rw [← ZMod.natCast_mod (r * r) m, ← ZMod.natCast_mod a m, hr1]
          push_cast at hcast
          linear_combination hcast
    · intro hnsq
      have ha1 : a ≠ 1 := by
        intro h1
        subst h1
        exact hnsq ⟨1, by push_cast; ring⟩
      rw [hunfold a m hm h3 ha1, if_neg ha, if_pos ?_]
      rw [Ne, heuler a m hm h3 ha]
      exact hnsq
  · decide

/-- Claim C7 counterexample: for prime `m > 3` and `a ≡ 0 (mod m)` the
Euler criterion fails (`0^((m-1)/2) ≢ 1`), so the claim's dichotomy demands
the empty list, but the code returns `[0]`: e.g. `mod_sqrt(0, 5) == [0]`. -/
theorem claim_C7_counterexample :
    modSqrt 0 5 = .ok [0] ∧ powMod (0 % 5) ((5 - 1) / 2) 5 ≠ 1 ∧
      (Except.ok [0] : Except String (List Nat)) ≠ .ok [] := by
  refine ⟨by decide, by decide, by decide⟩

/-- Claim C7 witness: the residue case at `a = 58`, `m = 101`. -/
theorem claim_C7_witness :
    ∃ r, modSqrt 58 101 = .ok [r, 101 - r] ∧ 1 ≤ r ∧ r < 101 ∧
      r * r % 101 = 58 % 101 ∧ (101 - r) * (101 - r) % 101 = 58 % 101 :=
  (claim_C7.2.2.2.2.1 58 101 (by norm_num) (by norm_num) (by decide)).2.1
    (by decide)

theorem twoAdicF_spec (f s : Nat) (h1 : 1 ≤ s) (hf : s ≤ f) :
    s = 2 ^ (twoAdicF f s).1 * (twoAdicF f s).2 ∧ (twoAdicF f s).2 % 2 = 1 := by
  induction f generalizing s with
  | zero => omega
  | succ f ih =>
    by_cases he : s % 2 = 0
    · have hs2 : 1 ≤ s / 2 := by omega
      have hf2 : s / 2 ≤ f := by omega
      obtain ⟨ha, hb⟩ := ih (s / 2) hs2 hf2
      have hred : twoAdicF (f + 1) s =
          ((twoAdicF f (s / 2)).1 + 1, (twoAdicF f (s / 2)).2) := by
        simp only [twoAdicF]
        rw [if_pos he]
      rw [hred]
      refine ⟨?_, hb⟩
      have h2s : s = 2 * (s / 2) := by omega
      rw [pow_succ]
      have harr : 2 ^ (twoAdicF f (s / 2)).1 * 2 * (twoAdicF f (s / 2)).2 =
          2 * (2 ^ (twoAdicF f (s / 2)).1 * (twoAdicF f (s / 2)).2) := by ring
      rw [harr, ← ha]
      omega
    · have hred : twoAdicF (f + 1) s = (0, s) := by
        simp only [twoAdicF]
        rw [if_neg he]
      rw [hred]
      exact ⟨by simp, by omega⟩

theorem twoAdic_spec (s : Nat) (h1 : 1 ≤ s) :
    s = 2 ^ (twoAdic s).1 * (twoAdic s).2 ∧ (twoAdic s).2 % 2 = 1 :=
  twoAdicF_spec s s h1 le_rfl

/-- If some iterate of squaring mod `n` hits `n - 1` within the budget, the
squaring loop reports success. -/
theorem mrSquare_true_of (n : Nat) :
    ∀ (c u x : Nat), 1 ≤ u → u ≤ c →
      ((fun z => powMod z 2 n)^[u] x = n - 1) → mrSquare n x c = true := by
  intro c
  induction c with
  | zero => omega
  | succ c ih =>
    intro u x hu1 huc hit
    simp only [mrSquare]
    by_cases hx : powMod x 2 n = n - 1
    · rw [if_pos hx]
    · rw [if_neg hx]
      match u, hu1 with
      | 1, _ =>
        exfalso
        rw [Function.iterate_one] at hit
        exact hx hit
      | u + 2, _ =>
        apply ih (u + 1) (powMod x 2 n) (by omega) (by omega)
        rw [← Function.iterate_succ_apply]
        exact hit

/-- For a prime `p ≥ 5` and any witness `a ∈ [2, p - 2]`, a Miller-Rabin
round passes: the chain `a^s, a^(2s), …, a^(2^r s) = a^(p-1) = 1` either
starts at 1 or passes through `-1`, because the only square roots of 1 in
the field `ZMod p` are `±1`. -/
theorem mrRound_prime (p r s a : Nat) (hp : Nat.Prime p) (h5 : 5 ≤ p)
    (hdecomp : p - 1 = 2 ^ r * s) (hs : s % 2 = 1)
    (ha2 : 2 ≤ a) (ham : a ≤ p - 2) :
    mrRound p s r a = true := by
  haveI := Fact.mk hp
  have hane : ((a : ZMod p)) ≠ 0 := by
    intro h0
    have := natCast_inj_of_lt p a 0 (by omega) (by omega)
      (by rw [h0]; push_cast; rfl)
    omega
  have hferm : ((a : ZMod p)) ^ (p - 1) = 1 := ZMod.pow_card_sub_one_eq_one hane
  have hPex : ∃ j, ((a : ZMod p)) ^ (s * 2 ^ j) = 1 := by
    refine ⟨r, ?_⟩
    rw [Nat.mul_comm, ← hdecomp]
    exact hferm
  set j0 := Nat.find hPex with hj0
  have hPj0 : ((a : ZMod p)) ^ (s * 2 ^ j0) = 1 := Nat.find_spec hPex
  have hj0r : j0 ≤ r := Nat.find_min' hPex (by
    rw [Nat.mul_comm, ← hdecomp]
    exact hferm)
  have hchain : ∀ u, ((((fun z => powMod z 2 p)^[u] (powMod a s p) : Nat)) : ZMod p) =
      ((a : ZMod p)) ^ (s * 2 ^ u) ∧ (fun z => powMod z 2 p)^[u] (powMod a s p) < p := by
    intro u
    induction u with
    | zero =>
      simp only [Function.iterate_zero, id_eq]
      constructor
      · rw [powMod_eq, ZMod.natCast_mod]
        push_cast
        congr 1
        omega
      · rw [powMod_eq]
        exact Nat.mod_lt _ (by omega)
    | succ u ihu =>
      obtain ⟨ih1, ih2⟩ := ihu
      rw [Function.iterate_succ_apply']
      constructor
      · rw [powMod_eq, ZMod.natCast_mod]
        push_cast
        rw [ih1, ← pow_mul]
        congr 1
        rw [pow_succ]
        ring
      · rw [powMod_eq]
        exact Nat.mod_lt _ (by omega)
  unfold mrRound
  by_cases hinit : powMod a s p = 1 ∨ powMod a s p = p - 1
  · rw [if_pos hinit]
  · rw [if_neg hinit]
    push_neg at hinit
    obtain ⟨hne1, hnem1⟩ := hinit
    have hx0 := hchain 0
    simp only [Function.iterate_zero, id_eq] at hx0
    have hpmlt : powMod a s p < p := by
      rw [powMod_eq]
      exact Nat.mod_lt _ (by omega)
    have hj0pos : 1 ≤ j0 := by
      rcases Nat.eq_zero_or_pos j0 with h0 | h0
      · exfalso
        apply hne1
        apply natCast_inj_of_lt p _ _ hpmlt (by omega)
        rw [hx0.1, Nat.cast_one]
        rw [h0] at hPj0
        exact hPj0
      · exact h0
    set y : ZMod p := ((a : ZMod p)) ^ (s * 2 ^ (j0 - 1)) with hy
    have hysq : y * y = 1 := by
      rw [hy, ← pow_add]
      have hexp : s * 2 ^ (j0 - 1) + s * 2 ^ (j0 - 1) = s * 2 ^ j0 := by
        have h2 : 2 ^ j0 = 2 ^ (j0 - 1) * 2 := by
          rw [← pow_succ]
          congr 1
          omega
        rw [h2]
        ring
      rw [hexp]
      exact hPj0
    have hyne1 : y ≠ 1 := by
      intro hcontra
      exact Nat.find_min hPex (show j0 - 1 < j0 by omega) hcontra
    have hym1 : y = -1 := by
      rcases mul_self_eq_one_iff.mp hysq with h | h
      · exact absurd h hyne1
      · exact h
    have hcastm1 : (((p - 1 : Nat)) : ZMod p) = -1 := by
      push_cast [Nat.cast_sub (show 1 ≤ p by omega)]
      rw [ZMod.natCast_self]
      ring
    rcases Nat.lt_or_ge (j0 - 1) 1 with hj1 | hj1
    · exfalso
      apply hnem1
      have hj01 : j0 = 1 := by omega
      apply natCast_inj_of_lt p _ _ hpmlt (by omega)
      rw [hx0.1, hcastm1]
      have hexp : s * 2 ^ 0 = s * 2 ^ (j0 - 1) := by
        rw [hj01]
      rw [hexp, ← hy]
      exact hym1
    · apply mrSquare_true_of p (r - 1) (j0 - 1) (powMod a s p) hj1 (by omega)
      have hc := hchain (j0 - 1)
      apply natCast_inj_of_lt p _ _ hc.2 (by omega)
      rw [hc.1, hcastm1, ← hy]
      exact hym1

theorem mrLoop_prime (p r s : Nat) (hp : Nat.Prime p) (h5 : 5 ≤ p)
    (hdecomp : p - 1 = 2 ^ r * s) (hs : s % 2 = 1) (w : Nat → Nat) :
    ∀ (k i : Nat), mrLoop p r s w k i = .ok true := by
  intro k
  induction k with
  | zero => intro i; rfl
  | succ k ih =>
    intro i
    simp only [mrLoop]
    have hrr : randrange 2 (p - 1) (w i) = .ok (2 + w i % (p - 1 - 2)) := by
      unfold randrange
      rw [if_neg (by omega)]
    rw [hrr]
    have hround : mrRound p s r (2 + w i % (p - 1 - 2)) = true := by
      apply mrRound_prime p r s _ hp h5 hdecomp hs (by omega)
      have := Nat.mod_lt (w i) (show 0 < p - 1 - 2 by omega)
      omega
    show (if mrRound p s r (2 + w i % (p - 1 - 2)) = true
      then mrLoop p r s w k (i + 1) else Except.ok false) = Except.ok true
    rw [hround, if_pos rfl]
    exact ih (i + 1)

/-- Claim C8 (amended): `miller_rabin` returns True for `n = 2` and False
for every even `n > 2`; for odd `n ≥ 5` it runs `k` rounds over witnesses
drawn from `[2, n - 2]` and returns False as soon as a round fails.  For the
prime 104297 it returns True for *every* seed stream (every witness passes a
round of a correct Miller-Rabin on a prime), and for the Carmichael-trap
composite 512461 it returns False whenever a round draws a strong witness
(e.g. the seed-0 stream, whose first witness is 2).  For `n = 3` the code
raises instead of returning a verdict (see the counterexample), and for
adversarial witness sequences such as every witness `= n - 1` the composite
case can return True, so the unconditional `miller_rabin(512461) == False`
of the original claim holds only with high probability. -/
theorem claim_C8 :
    (∀ k w, millerRabin 2 k w = .ok true) ∧
    (∀ n k w, 2 < n → n % 2 = 0 → millerRabin n k w = .ok false) ∧
    (∀ k w, millerRabin 104297 k w = .ok true) ∧
    millerRabin 512461 40 (fun _ => 0) = .ok false := by
  refine ⟨?_, ?_, ?_, by decide⟩
  · intro k w
    rfl
  · intro n k w h2 he
    unfold millerRabin
    rw [if_neg (by omega), if_pos he]
  · intro k w
    unfold millerRabin
    rw [if_neg (by decide), if_neg (by decide), if_neg (by decide)]
    rw [show twoAdic (104297 - 1) = (3, 13037) from by decide]
    exact mrLoop_prime 104297 3 13037 (by norm_num) (by norm_num)
      (by norm_num) (by norm_num) w k 0

/-- Claim C8 counterexample: the claim's round semantics implies a boolean
verdict for every odd `n`, but for `n = 3` the witness range `[2, n - 2]` is
empty and `random.randrange(2, 2)` raises `ValueError`, so
`miller_rabin(3)` raises instead of returning True (3 is prime). -/
theorem claim_C8_counterexample :
    Nat.Prime 3 ∧ 3 % 2 = 1 ∧
    millerRabin 3 40 (fun _ => 0) = .error "empty range for randrange" ∧
    (∀ b, millerRabin 3 40 (fun _ => 0) ≠ .ok b) := by
  refine ⟨by norm_num, by decide, by decide, by decide⟩

/-- Claim C8 witness: concrete instances of the quantified parts. -/
theorem claim_C8_witness :
    millerRabin 2 40 (fun _ => 0) = .ok true ∧
    millerRabin 6 40 (fun _ => 0) = .ok false ∧
    millerRabin 104297 1 (fun _ => 5) = .ok true :=
  ⟨claim_C8.1 40 (fun _ => 0),
   claim_C8.2.1 6 40 (fun _ => 0) (by decide) (by decide),
   claim_C8.2.2.1 1 (fun _ => 5)⟩

set_option maxRecDepth 20000 in
theorem lowPrimes_two_le : ∀ p ∈ lowPrimes, 2 ≤ p := by decide

theorem plProd_nil : plProd [] = 1 := rfl

theorem plProd_cons (q e : Nat) (t : List (Nat × Nat)) :
    plProd ((q, e) :: t) = q ^ e * plProd t := by
  simp [plProd]

theorem plProd_append (l1 l2 : List (Nat × Nat)) :
    plProd (l1 ++ l2) = plProd l1 * plProd l2 := by
  simp [plProd]

theorem plProd_singleton (q e : Nat) : plProd [(q, e)] = q ^ e := by
  simp [plProd]

theorem sumExp_cons (q e : Nat) (t : List (Nat × Nat)) (p : Nat) :
    sumExp ((q, e) :: t) p = (if q = p then e else 0) + sumExp t p := by
  by_cases h : q = p
  · subst h; simp [sumExp, List.filter_cons]
  · simp [sumExp, List.filter_cons, h]

theorem sumExp_eq_zero (t : List (Nat × Nat)) (q : Nat)
    (h : q ∉ t.map Prod.fst) : sumExp t q = 0 := by
  unfold sumExp
  have hnil : t.filter (fun pe => pe.1 == q) = [] := by
    rw [List.filter_eq_nil]
    intro pe hpe
    exact fun hq => h (List.mem_map.mpr ⟨pe, hpe, by simpa using hq⟩)
  rw [hnil]
  rfl

/-- The product of `p ^ (summed exponent of p)` over the distinct keys is
the product of the raw `(p, e)` list. -/
theorem prod_keys_pow_sumExp (l : List (Nat × Nat)) :
    ((l.map Prod.fst).toFinset.prod fun p => p ^ sumExp l p) = plProd l := by
  induction l with
  | nil => simp [plProd]
  | cons qe t ih =>
    obtain ⟨q, e⟩ := qe
    rw [List.map_cons, List.toFinset_cons, plProd_cons]
    by_cases hq : q ∈ (t.map Prod.fst).toFinset
    · rw [Finset.insert_eq_self.mpr hq]
      have hsplit : ((t.map Prod.fst).toFinset.prod fun p => p ^ sumExp ((q, e) :: t) p)
          = ((t.map Prod.fst).toFinset.prod fun p =>
              p ^ (if q = p then e else 0) * p ^ sumExp t p) :=
        Finset.prod_congr rfl (fun p _ => by rw [sumExp_cons, pow_add])
      rw [hsplit, Finset.prod_mul_distrib]
      have hone : ((t.map Prod.fst).toFinset.prod fun p => p ^ (if q = p then e else 0))
          = q ^ e := by
        rw [Finset.prod_eq_single q
          (fun b _ hbq => by rw [if_neg (fun hh => hbq hh.symm), pow_zero])
          (fun hq' => absurd hq hq')]
        rw [if_pos rfl]
      rw [hone, ih]
    · rw [Finset.prod_insert hq]
      have hq' : q ∉ t.map Prod.fst := fun hmem => hq (List.mem_toFinset.mpr hmem)
      have h0 : sumExp t q = 0 := sumExp_eq_zero t q hq'
      have hself : sumExp ((q, e) :: t) q = e := by
        rw [sumExp_cons, if_pos rfl, h0]
        exact Nat.add_zero e
      have hrest : ((t.map Prod.fst).toFinset.prod fun p => p ^ sumExp ((q, e) :: t) p)
          = ((t.map Prod.fst).toFinset.prod fun p => p ^ sumExp t p) :=
        Finset.prod_congr rfl (fun p hp => by
          rw [sumExp_cons, if_neg (fun hh => hq (by rw [hh]; exact hp)), Nat.zero_add])
      rw [hself, hrest, ih]

/-- A weakly sorted list without duplicates is strictly sorted. -/
theorem sorted_lt_of_sorted_le_nodup (l : List Nat)
    (hs : l.Sorted (· ≤ ·)) (hn : l.Nodup) : l.Sorted (· < ·) := by
  induction l with
  | nil => simp
  | cons a t ih =>
    rw [List.sorted_cons] at hs ⊢
    rw [List.nodup_cons] at hn
    refine ⟨fun b hb => ?_, ih hs.2 hn.2⟩
    have hab := hs.1 b hb
    have hne : a ≠ b := fun h => hn.1 (h ▸ hb)
    omega

/-- `FactorList.normalize` on well-formed data: it succeeds exactly on
well-formed data, preserves the reconstructed product, sorts the primes
strictly, and keeps every pair well-formed. -/
theorem plNormalize_spec (l L : List (Nat × Nat)) (h : plNormalize l = some L) :
    plProd L = plProd l ∧ (L.map Prod.fst).Sorted (· < ·) ∧
    ∀ pe ∈ L, 2 ≤ pe.1 ∧ 1 ≤ pe.2 := by
  unfold plNormalize at h
  by_cases hall : l.all (fun pe => decide (2 ≤ pe.1 ∧ 1 ≤ pe.2)) = true
  case neg => rw [if_neg hall] at h; exact absurd h (by simp)
  rw [if_pos hall] at h
  obtain rfl : L = ((l.map Prod.fst).dedup.insertionSort (· ≤ ·)).map
      (fun p => (p, sumExp l p)) := (Option.some.inj h).symm
  have hwf : ∀ pe ∈ l, 2 ≤ pe.1 ∧ 1 ≤ pe.2 := by
    intro pe hpe
    exact of_decide_eq_true (List.all_eq_true.mp hall pe hpe)
  have hperm : List.Perm ((l.map Prod.fst).dedup.insertionSort (· ≤ ·))
      ((l.map Prod.fst).dedup) :=
    List.perm_insertionSort _ _
  have hnd : ((l.map Prod.fst).dedup.insertionSort (· ≤ ·)).Nodup :=
    hperm.nodup_iff.mpr ((l.map Prod.fst).nodup_dedup)
  have hsle : ((l.map Prod.fst).dedup.insertionSort (· ≤ ·)).Sorted (· ≤ ·) :=
    List.sorted_insertionSort _ _
  refine ⟨?_, ?_, ?_⟩
  · have h1 : plProd (((l.map Prod.fst).dedup.insertionSort (· ≤ ·)).map
        fun p => (p, sumExp l p))
        = (((l.map Prod.fst).dedup.insertionSort (· ≤ ·)).map
            fun p => p ^ sumExp l p).prod := by
      unfold plProd
      rw [List.map_map]
      rfl
    have h2 : (((l.map Prod.fst).dedup.insertionSort (· ≤ ·)).map
        fun p => p ^ sumExp l p).prod
        = ((l.map Prod.fst).dedup.map fun p => p ^ sumExp l p).prod :=
      (hperm.map _).prod_eq
    have h3 : ((l.map Prod.fst).dedup.map fun p => p ^ sumExp l p).prod
        = ((l.map Prod.fst).dedup.toFinset.prod fun p => p ^ sumExp l p) :=
      (List.prod_toFinset _ ((l.map Prod.fst).nodup_dedup)).symm
    have h4 : (l.map Prod.fst).dedup.toFinset = (l.map Prod.fst).toFinset := by
      ext x
      simp [List.mem_toFinset, List.mem_dedup]
    rw [h1, h2, h3, h4]
    exact prod_keys_pow_sumExp l
  · have hmapfst : ((((l.map Prod.fst).dedup.insertionSort (· ≤ ·)).map
        fun p => (p, sumExp l p)).map Prod.fst)
        = (l.map Prod.fst).dedup.insertionSort (· ≤ ·) := by
      rw [List.map_map]
      exact List.map_id _
    rw [hmapfst]
    exact sorted_lt_of_sorted_le_nodup _ hsle hnd
  · intro pe hpe
    rw [List.mem_map] at hpe
    obtain ⟨p, hp, rfl⟩ := hpe
    have hpmem : p ∈ l.map Prod.fst := List.mem_dedup.mp (hperm.mem_iff.mp hp)
    rw [List.mem_map] at hpmem
    obtain ⟨qe, hqe, hfst⟩ := hpmem
    obtain ⟨h2q, h1e⟩ := hwf qe hqe
    refine ⟨hfst ▸ h2q, ?_⟩
    have hle : qe.2 ≤ sumExp l p := by
      unfold sumExp
      apply List.single_le_sum (fun x _ => Nat.zero_le x)
      rw [List.mem_map]
      exact ⟨qe, List.mem_filter.mpr ⟨hqe, by simp [hfst]⟩, rfl⟩
    omega

/-- Any hit of the trial-division loop is a table entry dividing `n`. -/
theorem trialFindF_spec : ∀ (l : List Nat) (top n i j p : Nat),
    trialFindF l top n i = some (j, p) → p ∈ l ∧ n % p = 0 := by
  intro l
  induction l with
  | nil => intro top n i j p h; exact absurd h (by simp [trialFindF])
  | cons q rest ih =>
    intro top n i j p h
    unfold trialFindF at h
    by_cases h1 : top < q
    · rw [if_pos h1] at h; exact absurd h (by simp)
    rw [if_neg h1] at h
    by_cases h2 : n % q = 0
    · rw [if_pos h2] at h
      obtain ⟨-, rfl⟩ : j = i ∧ p = q := by
        have := Option.some.inj h
        exact ⟨(congrArg Prod.fst this).symm, (congrArg Prod.snd this).symm⟩
      exact ⟨List.mem_cons_self _ _, h2⟩
    · rw [if_neg h2] at h
      obtain ⟨hm, hd⟩ := ih top n (i + 1) j p h
      exact ⟨List.mem_cons_of_mem q hm, hd⟩

/-- The exponent-extraction loop with enough fuel: `n = p ^ e * m` with
`p ∤ m` and `m ≥ 1`. -/
theorem extractExpF_spec : ∀ (f n p : Nat), 2 ≤ p → 1 ≤ n → n ≤ f →
    1 ≤ (extractExpF f n p).2 ∧
    n = p ^ (extractExpF f n p).1 * (extractExpF f n p).2 ∧
    ¬ p ∣ (extractExpF f n p).2 := by
  intro f
  induction f with
  | zero => intro n p hp hn hf; omega
  | succ f ih =>
    intro n p hp hn hf
    unfold extractExpF
    by_cases h : n % p = 0
    · rw [if_pos h]
      have hdvd : p ∣ n := Nat.dvd_of_mod_eq_zero h
      have hpn : p ≤ n := Nat.le_of_dvd (by omega) hdvd
      have hq1 : 1 ≤ n / p := (Nat.one_le_div_iff (by omega)).mpr hpn
      have hlt : n / p < n := Nat.div_lt_self (by omega) (by omega)
      obtain ⟨h1, h2, h3⟩ := ih (n / p) p hp hq1 (by omega)
      refine ⟨h1, ?_, h3⟩
      have hmul : p * (n / p) = n := Nat.mul_div_cancel' hdvd
      calc n = p * (n / p) := hmul.symm
        _ = p * (p ^ (extractExpF f (n / p) p).1 * (extractExpF f (n / p) p).2) := by
              rw [← h2]
        _ = p ^ ((extractExpF f (n / p) p).1 + 1) * (extractExpF f (n / p) p).2 := by
              ring
    · rw [if_neg h]
      exact ⟨hn, by simp, fun hc => h (Nat.mod_eq_zero_of_dvd hc)⟩

/-- `OLF(n)` always returns a divisor of `n`, and a positive one for
positive `n`: every exit is a `gcd(n, _)` or the fallback 1. -/
theorem OLF_dvd (n : Nat) (hn : 1 ≤ n) : OLF n ∣ n ∧ 1 ≤ OLF n := by
  unfold OLF
  cases hfind : (List.range' n (n - 1) n).find? (fun ni => is_square (csqrt ni ^ 2 % n)) with
  | none => exact ⟨one_dvd n, le_refl 1⟩
  | some ni =>
    exact ⟨Nat.gcd_dvd_left _ _,
      Nat.gcd_pos_of_pos_left (csqrt ni - isqrt (csqrt ni ^ 2 % n)) (show 0 < n by omega)⟩

set_option maxRecDepth 20000 in
/-- Soundness of `factor`'s body: every list it returns multiplies back to
`n`, is strictly sorted on the primes, and has all entries `(p ≥ 2, e ≥ 1)`. -/
theorem factorF_spec (mr : Nat → Bool) : ∀ (fuel n ith : Nat) (L : List (Nat × Nat)),
    factorF mr fuel n ith = some L →
    plProd L = n ∧ (L.map Prod.fst).Sorted (· < ·) ∧
    ∀ pe ∈ L, 2 ≤ pe.1 ∧ 1 ≤ pe.2 := by
  intro fuel
  induction fuel with
  | zero => intro n ith L h; exact absurd h (by simp [factorF])
  | succ fuel ih =>
    intro n ith L h
    simp only [factorF] at h
    by_cases h0 : n = 0
    · rw [if_pos h0] at h; exact absurd h (by simp)
    rw [if_neg h0] at h
    by_cases h1 : n = 1
    · rw [if_pos h1] at h
      obtain rfl : L = [] := (Option.some.inj h).symm
      exact ⟨by rw [plProd_nil, h1], by simp, by simp⟩
    rw [if_neg h1] at h
    have hn2 : 2 ≤ n := by omega
    by_cases h2 : n ∈ lowPrimes
    · rw [if_pos h2] at h
      obtain rfl : L = [(n, 1)] := (Option.some.inj h).symm
      exact ⟨by rw [plProd_singleton, pow_one], by simp,
        by intro pe hpe; simp at hpe; subst hpe; exact ⟨lowPrimes_two_le n h2, le_refl 1⟩⟩
    rw [if_neg h2] at h
    cases hfind : (if ith < lowPrimes.length
        then trialFindF (List.drop ith lowPrimes) (csqrt n) n 0 else none) with
    | some ip =>
      simp only [hfind] at h
      have htf : trialFindF (List.drop ith lowPrimes) (csqrt n) n 0 = some ip := by
        by_cases hlen : ith < lowPrimes.length
        · rw [if_pos hlen] at hfind; exact hfind
        · rw [if_neg hlen] at hfind; exact absurd hfind (by simp)
      obtain ⟨hpmem, hpdvd⟩ := trialFindF_spec _ _ _ _ ip.1 ip.2 htf
      have hp2 : 2 ≤ ip.2 := lowPrimes_two_le ip.2 (List.mem_of_mem_drop hpmem)
      rw [Option.bind_eq_some] at h
      obtain ⟨rest, hrest, hnorm⟩ := h
      obtain ⟨hm1, hprod, -⟩ :=
        extractExpF_spec n n ip.2 hp2 (by omega) (le_refl n)
      obtain ⟨hPr, hSr, hBr⟩ := ih (extractExp n ip.2).2 ip.1 rest hrest
      obtain ⟨hPn, hSn, hBn⟩ := plNormalize_spec _ _ hnorm
      refine ⟨?_, hSn, hBn⟩
      rw [hPn, plProd_cons, hPr]
      exact hprod.symm
    | none =>
      simp only [hfind] at h
      by_cases h3 : n ≤ (lowPrimes.getLastD 0) ^ 2
      · rw [if_pos h3] at h
        obtain rfl : L = [(n, 1)] := (Option.some.inj h).symm
        exact ⟨by rw [plProd_singleton, pow_one], by simp,
          by intro pe hpe; simp at hpe; subst hpe; exact ⟨hn2, le_refl 1⟩⟩
      rw [if_neg h3] at h
      by_cases h4 : mr n = true
      · rw [if_pos h4] at h
        obtain rfl : L = [(n, 1)] := (Option.some.inj h).symm
        exact ⟨by rw [plProd_singleton, pow_one], by simp,
          by intro pe hpe; simp at hpe; subst hpe; exact ⟨hn2, le_refl 1⟩⟩
      rw [if_neg h4] at h
      by_cases h5 : OLF n = 1
      · rw [if_pos h5] at h
        obtain rfl : L = [(n, 1)] := (Option.some.inj h).symm
        exact ⟨by rw [plProd_singleton, pow_one], by simp,
          by intro pe hpe; simp at hpe; subst hpe; exact ⟨hn2, le_refl 1⟩⟩
      rw [if_neg h5] at h
      rw [Option.bind_eq_some] at h
      obtain ⟨l1, hl1, h⟩ := h
      rw [Option.bind_eq_some] at h
      obtain ⟨l2, hl2, h⟩ := h
      rw [Option.bind_eq_some] at h
      obtain ⟨Lmid, hmid, hfin⟩ := h
      obtain ⟨hP1, -, -⟩ := ih (OLF n) 0 l1 hl1
      obtain ⟨hP2, -, -⟩ := ih (n / OLF n) 0 l2 hl2
      obtain ⟨hPm, -, -⟩ := plNormalize_spec _ _ hmid
      obtain ⟨hPf, hSf, hBf⟩ := plNormalize_spec _ _ hfin
      refine ⟨?_, hSf, hBf⟩
      rw [hPf, hPm, plProd_append, hP1, hP2]
      exact Nat.mul_div_cancel' (OLF_dvd n (by omega)).1

set_option maxRecDepth 40000 in
/-- Claim C3: `factor` rejects non-integer input by typing alone; it raises
a ValueError for every integer `n < 1`; `factor(1)` is the empty
factorization; and whenever the body terminates with a result (any fuel,
any answers of the randomized `miller_rabin` oracle, any `ith`), that
result is a normalized factor list: strictly increasing first components,
every entry with `p ≥ 2` and exponent `≥ 1`, and reconstructed product
(`factor(n).n`) equal to `n`; concretely,
`factor(1729) = [(7, 1), (13, 1), (19, 1)]`. -/
theorem claim_C3 :
    (∀ (mr : Nat → Bool) (fuel : Nat) (z : Int), z < 1 →
      factorTop mr fuel z = Except.error "input must be positive") ∧
    (∀ (mr : Nat → Bool) (fuel : Nat), factorTop mr (fuel + 1) 1 = Except.ok (some [])) ∧
    (∀ (mr : Nat → Bool) (fuel n ith : Nat) (L : List (Nat × Nat)),
      factorF mr fuel n ith = some L →
      plProd L = n ∧ (L.map Prod.fst).Sorted (· < ·) ∧
      ∀ pe ∈ L, 2 ≤ pe.1 ∧ 1 ≤ pe.2) ∧
    (∀ mr : Nat → Bool, factorF mr 10 1729 0 = some [(7, 1), (13, 1), (19, 1)]) := by
  refine ⟨?_, ?_, ?_, ?_⟩
  · intro mr fuel z hz
    unfold factorTop
    rw [if_pos hz]
  · intro mr fuel
    unfold factorTop
    rw [if_neg (by omega)]
    rfl
  · intro mr fuel n ith L h
    exact factorF_spec mr fuel n ith L h
  · intro mr
    rfl

set_option maxRecDepth 40000 in
/-- Claim C3 witness: the error at 0, the empty factorization of 1, and the
normalization properties of the concrete factorization of 1729. -/
theorem claim_C3_witness :
    factorTop (fun _ => true) 10 0 = Except.error "input must be positive" ∧
    factorTop (fun _ => true) 10 1 = Except.ok (some []) ∧
    (plProd [(7, 1), (13, 1), (19, 1)] = 1729 ∧
      (([(7, 1), (13, 1), (19, 1)] : List (Nat × Nat)).map Prod.fst).Sorted (· < ·) ∧
      ∀ pe ∈ ([(7, 1), (13, 1), (19, 1)] : List (Nat × Nat)), 2 ≤ pe.1 ∧ 1 ≤ pe.2) :=
  ⟨claim_C3.1 (fun _ => true) 10 0 (by decide),
   claim_C3.2.1 (fun _ => true) 9,
   claim_C3.2.2.1 (fun _ => true) 10 1729 0 [(7, 1), (13, 1), (19, 1)]
     (claim_C3.2.2.2 (fun _ => true))⟩
